import Mathlib

/-!
# Ring buffer of `src/main.c` (producer / consumer / monitor)

Shallow embedding of the single-lock ring buffer.  The C `int`s are modelled by `Int`:
every value the program computes from cursors in `[0, N)` and markers in `{0, 1}` lies in
`[-N, N]`, so no 32-bit overflow can occur for any array size a C compiler accepts.

The array `data[RBF_SIZE]` is a `List Int`; the size `RBF_SIZE` is a parameter `N` of every
definition (the program is the instance `N = RBF_SIZE = 32`).  An access `data[idx]` with
`idx` outside the array is undefined behaviour in C and is modelled by the result `none`.

The mutex serialises the critical sections, so an execution of the threads is a list of
critical sections (`Action`s) run one after the other.

An `Action` is a whole critical section, so between two actions the mutex is free; the
signal handler as a whole, with its call of `rb_lock` on a mutex that the interrupted
thread may hold, is `sighdl`.

One iteration of a worker loop (`producer_iter`, `consumer_iter`, `monitor_iter`) first
tests the flag, before `rb_lock`, and then runs its critical section; the buffer read by
the test and the buffer found when the lock is obtained are separate arguments.  The
functions `producer_events`, `consumer_events`, `monitor_events` and `sighdl_events` list,
in program order, the lock operations and the accesses to the buffer that the same code
performs.
-/

namespace ProducerConsumer

/-- Source line 18: `#define RBF_SIZE 32`. -/
def RBF_SIZE : Nat := 32

/-- Source lines 23-29: `struct ringbuf` (the mutex is not part of the data state). -/
structure rbf where
  data : List Int
  «in» : Int
  out : Int
  terminate : Int
deriving DecidableEq, Repr

/-- Source lines 48-50: `rb_next`; `Int.tmod` is C's truncating `%`. -/
def rb_next (N : Nat) (idx : Int) : Int :=
  Int.tmod (idx + 1) (N : Int)

/-- Read of `data[idx]`; `none` when `idx` is outside the array. -/
def load (data : List Int) (idx : Int) : Option Int :=
  if 0 ≤ idx then data[idx.toNat]? else none

/-- Write of `data[idx] = v` (only used after a successful `load` at `idx`). -/
def store (data : List Int) (idx : Int) (v : Int) : List Int :=
  data.set idx.toNat v

/-- Source lines 72-82: `rb_inc`.  Result: the returned `int` and the buffer afterwards. -/
def rb_inc (N : Nat) (p : rbf) (idx pid : Int) : Option (Int × rbf) :=
  match load p.data idx with
  | none => none
  | some v =>
    if v ≠ 0 then some (-1, p)
    else some (0, { p with data := store p.data idx (v + 1), «in» := rb_next N idx })

/-- Source lines 84-94: `rb_dec`.  Result: the returned `int` and the buffer afterwards. -/
def rb_dec (N : Nat) (p : rbf) (idx cid : Int) : Option (Int × rbf) :=
  match load p.data idx with
  | none => none
  | some v =>
    if v ≠ 1 then some (-1, p)
    else some (0, { p with data := store p.data idx (v - 1), out := rb_next N idx })

/-- Source lines 101-102: the `for` loop of `rb_dump` at index `i` with `n` iterations
left; each iteration prints `data[i]` with the format `"%d "`. -/
def rb_dump_loop (data : List Int) : Nat → Nat → Option String
  | _, 0 => some ""
  | i, n + 1 =>
    match load data (i : Int) with
    | none => none
    | some v =>
      match rb_dump_loop data (i + 1) n with
      | none => none
      | some rest => some (toString v ++ " " ++ rest)

/-- Source lines 96-104: the text printed by `rb_dump`. -/
def rb_dump (N : Nat) (p : rbf) : Option String :=
  match rb_dump_loop p.data 0 N with
  | none => none
  | some markers =>
    some ("in " ++ toString p.«in» ++ " out " ++ toString p.out ++ "   [" ++ markers ++ "]\n")

/-- Source lines 115-116: the condition of the producer's `rb full` branch. -/
def producer_full (N : Nat) (i o : Int) : Prop :=
  (i > o ∧ i - o = (N : Int) - 1) ∨ (i < o ∧ i - o = -1)

instance (N : Nat) (i o : Int) : Decidable (producer_full N i o) := by
  unfold producer_full; infer_instance

/-- Which branch one critical section took. -/
inductive Path where
  /-- The producer's `rb full` branch: `rb_inc` is not called. -/
  | rb_full
  /-- The producer called `rb_inc`, which returned `ret`. -/
  | inc (ret : Int)
  /-- The consumer's `rb empty` branch: `rb_dec` is not called. -/
  | rb_empty
  /-- The consumer called `rb_dec`, which returned `ret`. -/
  | dec (ret : Int)
  /-- The monitor called `rb_dump`, which printed `text`. -/
  | dump (text : String)
  /-- The signal handler set the flag. -/
  | terminate
deriving DecidableEq, Repr

/-- Source lines 113-122: the locked body of one iteration of `producer`. -/
def producer_cs (N : Nat) (p : rbf) (pid : Int) : Option (Path × rbf) :=
  let i := p.«in»
  let o := p.out
  if producer_full N i o then some (Path.rb_full, p)
  else
    match rb_inc N p i pid with
    | none => none
    | some (ret, q) => some (Path.inc ret, q)

/-- Source lines 138-146: the locked body of one iteration of `consumer`. -/
def consumer_cs (N : Nat) (p : rbf) (cid : Int) : Option (Path × rbf) :=
  let i := p.«in»
  let o := p.out
  if i = o then some (Path.rb_empty, p)
  else
    match rb_dec N p o cid with
    | none => none
    | some (ret, q) => some (Path.dec ret, q)

/-- Source lines 160-162: the locked body of one iteration of `monitor`. -/
def monitor_cs (N : Nat) (p : rbf) : Option (Path × rbf) :=
  match rb_dump N p with
  | none => none
  | some text => some (Path.dump text, p)

/-- Source lines 240-241: the part of `sighdl` between `rb_lock` and `rb_unlock`, run
by a handler that holds the mutex. -/
def sighdl_cs (p : rbf) (_signum : Int) : rbf :=
  { p with terminate := 1 }

/-- A thread of the process: `main` or a worker started on lines 200, 212 and 219.  The
handler installed on line 251 runs on whichever thread receives the signal. -/
inductive Thread where
  | main
  | producer (pid : Int)
  | consumer (cid : Int)
  | monitor
deriving DecidableEq, Repr

/-- How a call of `pthread_mutex_lock` ends on the mutex of line 173, which has the
default attributes (not recursive, no error check). -/
inductive LockResult where
  /-- The mutex was free: the caller holds it now. -/
  | acquired
  /-- Another thread held the mutex: the call returns once that thread has released it. -/
  | waited
  /-- The caller itself holds the mutex: the call never returns. -/
  | blocked
deriving DecidableEq, Repr

/-- Source lines 52-60: `rb_lock` called by thread `self` while `holder` holds the mutex. -/
def rb_lock (holder : Option Thread) (self : Thread) : LockResult :=
  match holder with
  | none => LockResult.acquired
  | some t => if t = self then LockResult.blocked else LockResult.waited

/-- Source lines 62-70: `rb_unlock` by the holder; the result is the holder afterwards. -/
def rb_unlock (_holder : Option Thread) : Option Thread :=
  none

/-- Source lines 238-243: `sighdl` run on thread `self` while `holder` holds the mutex;
`p` is the buffer when `rb_lock` returns.  Result: the holder of the mutex and the buffer
when the handler returns, `none` when `rb_lock` never returns (the flag is then not
written and the handler does not return). -/
def sighdl (holder : Option Thread) (self : Thread) (p : rbf) (signum : Int) :
    Option (Option Thread × rbf) :=
  match rb_lock holder self with
  | LockResult.blocked => none
  | LockResult.acquired => some (rb_unlock (some self), sighdl_cs p signum)
  | LockResult.waited => some (rb_unlock (some self), sighdl_cs p signum)

/-- Source lines 169-185: `rb_init`; the two flags say whether `malloc` and
`pthread_mutex_init` succeed, `none` is the `NULL` result. -/
def rb_init (N : Nat) (malloc_ok mutex_ok : Bool) : Option rbf :=
  if malloc_ok then
    if !mutex_ok then none
    else some { data := List.replicate N 0, «in» := 0, out := 0, terminate := 0 }
  else none

/-- One critical section of some thread, or one run of the signal handler that obtains
the mutex. -/
inductive Action where
  | producer (pid : Int)
  | consumer (cid : Int)
  | monitor
  | sighdl (signum : Int)
deriving DecidableEq, Repr

/-- Effect of one action on the buffer. -/
def step (N : Nat) (a : Action) (p : rbf) : Option (Path × rbf) :=
  match a with
  | Action.producer pid => producer_cs N p pid
  | Action.consumer cid => consumer_cs N p cid
  | Action.monitor => monitor_cs N p
  | Action.sighdl signum => some (Path.terminate, sighdl_cs p signum)

/-- Run a schedule of actions; the result is the list of branches taken and the final buffer. -/
def exec (N : Nat) : List Action → rbf → Option (List Path × rbf)
  | [], p => some ([], p)
  | a :: rest, p =>
    match step N a p with
    | none => none
    | some (e, q) =>
      match exec N rest q with
      | none => none
      | some (es, r) => some (e :: es, r)

/-- A buffer obtained from the one built by `rb_init` by some schedule. -/
def Reachable (N : Nat) (s : rbf) : Prop :=
  ∃ (m k : Bool) (p0 : rbf) (acts : List Action) (tr : List Path),
    rb_init N m k = some p0 ∧ exec N acts p0 = some (tr, s)

/-- Number of Occupied markers. -/
def occupied (p : rbf) : Nat :=
  p.data.count 1

/-- The step from `s` to `q` fills slot `i`: the marker is 0 before and 1 after. -/
def fills (s q : rbf) (i : Nat) : Prop :=
  load s.data (i : Int) = some 0 ∧ load q.data (i : Int) = some 1

/-- The step from `s` to `q` drains slot `i`: the marker is 1 before and 0 after. -/
def drains (s q : rbf) (i : Nat) : Prop :=
  load s.data (i : Int) = some 1 ∧ load q.data (i : Int) = some 0

/-- Some consumer critical section inside the schedule `mid`, run from `s`, drains slot `i`. -/
def DrainWithin (N : Nat) (i : Nat) (mid : List Action) (s : rbf) : Prop :=
  ∃ (pre : List Action) (cid : Int) (post : List Action) (tr : List Path) (u : rbf)
    (e : Path) (v : rbf),
    mid = pre ++ Action.consumer cid :: post ∧ exec N pre s = some (tr, u)
      ∧ consumer_cs N u cid = some (e, v) ∧ drains u v i

/-- Some producer critical section inside the schedule `mid`, run from `s`, fills slot `i`. -/
def FillWithin (N : Nat) (i : Nat) (mid : List Action) (s : rbf) : Prop :=
  ∃ (pre : List Action) (pid : Int) (post : List Action) (tr : List Path) (u : rbf)
    (e : Path) (v : rbf),
    mid = pre ++ Action.producer pid :: post ∧ exec N pre s = some (tr, u)
      ∧ producer_cs N u pid = some (e, v) ∧ fills u v i

/-- The invariant of the ring buffer: array size, cursor ranges, slot markers and count. -/
structure Inv (N : Nat) (s : rbf) : Prop where
  len : s.data.length = N
  in_lo : 0 ≤ s.«in»
  in_hi : s.«in» < (N : Int)
  out_lo : 0 ≤ s.out
  out_hi : s.out < (N : Int)
  slots : ∀ i : Nat, i < N →
    s.data[i]? = some (if ((i : Int) - s.out) % (N : Int) < (s.«in» - s.out) % (N : Int) then 1 else 0)
  count : (occupied s : Int) = (s.«in» - s.out) % (N : Int)

/-- Whether a worker thread is still in its loop after an iteration. -/
inductive Ctl where
  | running
  | terminated
deriving DecidableEq, Repr

/-- Source lines 110-126: one iteration of the loop of `producer`.  `seen` is the buffer
when line 111 reads the flag (before the lock is taken), `p` the buffer when the lock is
obtained.  Result: loop state, the branch of the critical section if one ran, buffer. -/
def producer_iter (N : Nat) (seen p : rbf) (pid : Int) : Option (Ctl × Option Path × rbf) :=
  if seen.terminate ≠ 0 then some (Ctl.terminated, none, p)
  else
    match producer_cs N p pid with
    | none => none
    | some (e, q) => some (Ctl.running, some e, q)

/-- Source lines 135-150: one iteration of the loop of `consumer`. -/
def consumer_iter (N : Nat) (seen p : rbf) (cid : Int) : Option (Ctl × Option Path × rbf) :=
  if seen.terminate ≠ 0 then some (Ctl.terminated, none, p)
  else
    match consumer_cs N p cid with
    | none => none
    | some (e, q) => some (Ctl.running, some e, q)

/-- Source lines 157-164: one iteration of the loop of `monitor`. -/
def monitor_iter (N : Nat) (seen p : rbf) : Option (Ctl × Option Path × rbf) :=
  if seen.terminate ≠ 0 then some (Ctl.terminated, none, p)
  else
    match monitor_cs N p with
    | none => none
    | some (e, q) => some (Ctl.running, some e, q)

/-- A field of `struct ringbuf` that a thread reads or writes. -/
inductive Loc where
  | data (idx : Int)
  | cursor_in
  | cursor_out
  | flag
deriving DecidableEq, Repr

/-- What one thread does, in program order: lock operations and accesses to the buffer. -/
inductive Ev where
  | lock
  | unlock
  | read (l : Loc)
  | write (l : Loc)
deriving DecidableEq, Repr

/-- Accesses of `rb_inc` (lines 73, 76, 79, 80). -/
def rb_inc_events (p : rbf) (idx : Int) : List Ev :=
  match load p.data idx with
  | none => [Ev.read (Loc.data idx)]
  | some v =>
    if v ≠ 0 then [Ev.read (Loc.data idx), Ev.read (Loc.data idx)]
    else [Ev.read (Loc.data idx), Ev.read (Loc.data idx), Ev.write (Loc.data idx),
      Ev.write Loc.cursor_in]

/-- Accesses of `rb_dec` (lines 85, 88, 91, 92). -/
def rb_dec_events (p : rbf) (idx : Int) : List Ev :=
  match load p.data idx with
  | none => [Ev.read (Loc.data idx)]
  | some v =>
    if v ≠ 1 then [Ev.read (Loc.data idx), Ev.read (Loc.data idx)]
    else [Ev.read (Loc.data idx), Ev.read (Loc.data idx), Ev.write (Loc.data idx),
      Ev.write Loc.cursor_out]

/-- Accesses of `rb_dump` (lines 98, 102). -/
def rb_dump_events (N : Nat) : List Ev :=
  Ev.read Loc.cursor_in :: Ev.read Loc.cursor_out
    :: (List.range N).map (fun i => Ev.read (Loc.data (i : Int)))

/-- Lock operations and accesses of one iteration of `producer` (lines 111-122). -/
def producer_events (N : Nat) (seen p : rbf) : List Ev :=
  Ev.read Loc.flag ::
    (if seen.terminate ≠ 0 then []
     else
      [Ev.lock, Ev.read Loc.cursor_in, Ev.read Loc.cursor_out]
        ++ (if producer_full N p.«in» p.out then [] else rb_inc_events p p.«in»)
        ++ [Ev.unlock])

/-- Lock operations and accesses of one iteration of `consumer` (lines 136-146). -/
def consumer_events (seen p : rbf) : List Ev :=
  Ev.read Loc.flag ::
    (if seen.terminate ≠ 0 then []
     else
      [Ev.lock, Ev.read Loc.cursor_in, Ev.read Loc.cursor_out]
        ++ (if p.«in» = p.out then [] else rb_dec_events p p.out)
        ++ [Ev.unlock])

/-- Lock operations and accesses of one iteration of `monitor` (lines 158-162). -/
def monitor_events (N : Nat) (seen : rbf) : List Ev :=
  Ev.read Loc.flag ::
    (if seen.terminate ≠ 0 then []
     else [Ev.lock] ++ rb_dump_events N ++ [Ev.unlock])

/-- Lock operations and accesses of `sighdl` (lines 239-242). -/
def sighdl_events : List Ev :=
  [Ev.lock, Ev.write Loc.flag, Ev.unlock]

/-- Lock discipline of a thread: every access happens while the thread holds the lock;
`held` says whether it holds the lock at the start. -/
def lock_ok : Bool → List Ev → Bool
  | _, [] => true
  | _, Ev.lock :: es => lock_ok true es
  | _, Ev.unlock :: es => lock_ok false es
  | held, Ev.read _ :: es => held && lock_ok held es
  | held, Ev.write _ :: es => held && lock_ok held es

/-- The markers of a dump line as the format `"%d "` prints them: each marker in decimal
followed by one space. -/
def markers_text : List Int → String
  | [] => ""
  | v :: vs => toString v ++ " " ++ markers_text vs

/-- The slot-occupancy property: slot `i < N` holds 1 exactly when `i` lies in the circular
range `[out, in)`, and 0 otherwise. -/
def SlotInv (N : Nat) (s : rbf) : Prop :=
  ∀ i : Nat, i < N →
    (load s.data (i : Int) = some 1
        ↔ ((i : Int) - s.out) % (N : Int) < (s.«in» - s.out) % (N : Int))
    ∧ (¬ (((i : Int) - s.out) % (N : Int) < (s.«in» - s.out) % (N : Int))
        → load s.data (i : Int) = some 0)

/-- The schedule of Scenario A: `k` rounds of one producer step then one consumer step. -/
def rounds : Nat → List Action
  | 0 => []
  | k + 1 => Action.producer 0 :: Action.consumer 0 :: rounds k

/-- The buffers met along a schedule: the buffer after each action, in order. -/
def exec_states (N : Nat) : List Action → rbf → Option (List rbf)
  | [], _ => some []
  | a :: rest, p =>
    match step N a p with
    | none => none
    | some (_, q) =>
      match exec_states N rest q with
      | none => none
      | some qs => some (q :: qs)

/-- Array size and cursor ranges. -/
structure Rng (N : Nat) (s : rbf) : Prop where
  len : s.data.length = N
  in_lo : 0 ≤ s.«in»
  in_hi : s.«in» < (N : Int)
  out_lo : 0 ≤ s.out
  out_hi : s.out < (N : Int)

/-- The branches taken along `rounds k` when every step succeeds. -/
def round_paths : Nat → List Path
  | 0 => []
  | k + 1 => Path.inc 0 :: Path.dec 0 :: round_paths k

/-! ## Arithmetic of the cursors -/

theorem cdist_eq (N : Nat) (a b : Int) (ha0 : 0 ≤ a) (haN : a < (N : Int))
    (hb0 : 0 ≤ b) (hbN : b < (N : Int)) :
    (a - b) % (N : Int) = if b ≤ a then a - b else a - b + (N : Int) := by
  split
  · exact Int.emod_eq_of_lt (by omega) (by omega)
  · rw [← Int.add_emod_self]
    exact Int.emod_eq_of_lt (by omega) (by omega)

theorem rb_next_eq (N : Nat) (idx : Int) (h0 : 0 ≤ idx) (hN : idx < (N : Int)) :
    rb_next N idx = if idx + 1 = (N : Int) then 0 else idx + 1 := by
  unfold rb_next
  rw [Int.tmod_eq_emod (by omega) (by omega)]
  split
  · rename_i h
    rw [h]
    exact Int.emod_self
  · exact Int.emod_eq_of_lt (by omega) (by omega)

theorem rb_next_emod (N : Nat) (idx : Int) (h0 : 0 ≤ idx) :
    rb_next N idx = (idx + 1) % (N : Int) := by
  unfold rb_next
  exact Int.tmod_eq_emod (by omega) (by omega)

theorem load_natCast (data : List Int) (k : Nat) : load data (k : Int) = data[k]? := by
  simp [load]

theorem store_natCast (data : List Int) (k : Nat) (v : Int) :
    store data (k : Int) v = data.set k v := by
  simp [store]

theorem inv_rb_inc (N : Nat) (hN : 2 ≤ N) (s : rbf) (h : Inv N s)
    (hf : ¬ producer_full N s.«in» s.out) (pid : Int) :
    rb_inc N s s.«in» pid
        = some (0, { s with data := store s.data s.«in» 1, «in» := rb_next N s.«in» })
      ∧ Inv N { s with data := store s.data s.«in» 1, «in» := rb_next N s.«in» } := by
  obtain ⟨data, i, o, t⟩ := s
  obtain ⟨hlen, hi0, hiN, ho0, hoN, hsl, hct⟩ := h
  simp only [occupied] at hlen hi0 hiN ho0 hoN hsl hct hf ⊢
  obtain ⟨k, rfl⟩ := Int.eq_ofNat_of_zero_le hi0
  obtain ⟨m, rfl⟩ := Int.eq_ofNat_of_zero_le ho0
  have hk : data[k]? = some 0 := by
    rw [hsl k (by omega)]; simp
  have hkl : k < data.length := by omega
  have hnx := rb_next_eq N (k : Int) hi0 hiN
  have hd := cdist_eq N (k : Int) (m : Int) hi0 hiN ho0 hoN
  unfold producer_full at hf
  refine ⟨by simp [rb_inc, load_natCast, hk, store_natCast], ?_⟩
  rw [store_natCast]
  refine ⟨by simpa using hlen, ?_, ?_, ho0, hoN, ?_, ?_⟩
  · show 0 ≤ rb_next N (k : Int)
    rw [hnx]; split <;> omega
  · show rb_next N (k : Int) < (N : Int)
    rw [hnx]; split <;> omega
  · intro j hj
    show (data.set k 1)[j]? = some (if ((j : Int) - (m : Int)) % (N : Int) < (rb_next N (k : Int) - (m : Int)) % (N : Int) then 1 else 0)
    have hj' := hsl j hj
    have hdj := cdist_eq N (j : Int) (m : Int) (by omega) (by omega) ho0 hoN
    have hdn := cdist_eq N (rb_next N (k : Int)) (m : Int) (by rw [hnx]; split <;> omega)
      (by rw [hnx]; split <;> omega) ho0 hoN
    rw [hdj, hd] at hj'
    rw [hdj, hdn, hnx, List.getElem?_set, hj']
    split_ifs <;> first | rfl | (exfalso; omega)
  · show ((List.count 1 (data.set k 1) : Nat) : Int) = (rb_next N (k : Int) - (m : Int)) % (N : Int)
    have hdn := cdist_eq N (rb_next N (k : Int)) (m : Int) (by rw [hnx]; split <;> omega)
      (by rw [hnx]; split <;> omega) ho0 hoN
    rw [hd] at hct
    rw [hdn, hnx, List.count_set _ _ _ _ hkl]
    have hk0 : data[k] = 0 := by
      have := List.getElem?_eq_getElem hkl
      rw [hk] at this; exact (Option.some.inj this).symm
    rw [hk0]
    simp
    split_ifs <;> omega

theorem inv_rb_dec (N : Nat) (s : rbf) (h : Inv N s)
    (hne : s.«in» ≠ s.out) (cid : Int) :
    rb_dec N s s.out cid
        = some (0, { s with data := store s.data s.out 0, out := rb_next N s.out })
      ∧ Inv N { s with data := store s.data s.out 0, out := rb_next N s.out } := by
  obtain ⟨data, i, o, t⟩ := s
  obtain ⟨hlen, hi0, hiN, ho0, hoN, hsl, hct⟩ := h
  simp only [occupied] at hlen hi0 hiN ho0 hoN hsl hct hne ⊢
  obtain ⟨k, rfl⟩ := Int.eq_ofNat_of_zero_le hi0
  obtain ⟨m, rfl⟩ := Int.eq_ofNat_of_zero_le ho0
  have hd := cdist_eq N (k : Int) (m : Int) hi0 hiN ho0 hoN
  have hm : data[m]? = some 1 := by
    rw [hsl m (by omega), hd]
    simp only [sub_self, Int.zero_emod]
    split_ifs <;> first | rfl | (exfalso; omega)
  have hml : m < data.length := by omega
  have hnx := rb_next_eq N (m : Int) ho0 hoN
  have hn0 : 0 ≤ rb_next N (m : Int) := by rw [hnx]; split <;> omega
  have hnN : rb_next N (m : Int) < (N : Int) := by rw [hnx]; split <;> omega
  refine ⟨by simp [rb_dec, load_natCast, hm, store_natCast], ?_⟩
  rw [store_natCast]
  refine ⟨by simpa using hlen, hi0, hiN, hn0, hnN, ?_, ?_⟩
  · intro j hj
    show (data.set m 0)[j]? = some (if ((j : Int) - rb_next N (m : Int)) % (N : Int) < ((k : Int) - rb_next N (m : Int)) % (N : Int) then 1 else 0)
    have hj' := hsl j hj
    have hdj := cdist_eq N (j : Int) (m : Int) (by omega) (by omega) ho0 hoN
    have hdj' := cdist_eq N (j : Int) (rb_next N (m : Int)) (by omega) (by omega) hn0 hnN
    have hdn := cdist_eq N (k : Int) (rb_next N (m : Int)) hi0 hiN hn0 hnN
    rw [hdj, hd] at hj'
    rw [hdj', hdn, hnx, List.getElem?_set, hj']
    split_ifs <;> first | rfl | (exfalso; omega)
  · show ((List.count 1 (data.set m 0) : Nat) : Int) = ((k : Int) - rb_next N (m : Int)) % (N : Int)
    have hdn := cdist_eq N (k : Int) (rb_next N (m : Int)) hi0 hiN hn0 hnN
    rw [hd] at hct
    rw [hdn, hnx, List.count_set _ _ _ _ hml]
    have hm1 : data[m] = 1 := by
      have := List.getElem?_eq_getElem hml
      rw [hm] at this; exact (Option.some.inj this).symm
    rw [hm1]
    simp
    split_ifs at hct ⊢ <;> omega

/-! ## The invariant holds in every reachable state -/

theorem rb_init_eq (N : Nat) (m k : Bool) (p0 : rbf) (h : rb_init N m k = some p0) :
    p0 = { data := List.replicate N 0, «in» := 0, out := 0, terminate := 0 } := by
  unfold rb_init at h
  split at h
  · split at h
    · exact absurd h (by simp)
    · exact (Option.some.inj h).symm
  · exact absurd h (by simp)

theorem inv_init (N : Nat) (hN : 1 ≤ N) (m k : Bool) (p0 : rbf)
    (h : rb_init N m k = some p0) : Inv N p0 := by
  rw [rb_init_eq N m k p0 h]
  refine ⟨by simp, by simp, by simpa using hN, by simp, by simpa using hN, ?_, ?_⟩
  · intro i hi
    have h0 : ¬ ((i : Int) % (N : Int) < 0) := not_lt.mpr (Int.emod_nonneg _ (by omega))
    simp [List.getElem?_replicate, hi, h0]
  · simp [occupied, List.count_replicate]

theorem producer_cs_cases (N : Nat) (hN : 2 ≤ N) (s : rbf) (h : Inv N s) (pid : Int) :
    (producer_full N s.«in» s.out ∧ producer_cs N s pid = some (Path.rb_full, s))
      ∨ (¬ producer_full N s.«in» s.out
          ∧ producer_cs N s pid = some (Path.inc 0,
              { s with data := store s.data s.«in» 1, «in» := rb_next N s.«in» })
          ∧ Inv N { s with data := store s.data s.«in» 1, «in» := rb_next N s.«in» }) := by
  by_cases hf : producer_full N s.«in» s.out
  · exact Or.inl ⟨hf, by simp [producer_cs, hf]⟩
  · obtain ⟨h1, h2⟩ := inv_rb_inc N hN s h hf pid
    exact Or.inr ⟨hf, by simp [producer_cs, hf, h1], h2⟩

theorem consumer_cs_cases (N : Nat) (s : rbf) (h : Inv N s) (cid : Int) :
    (s.«in» = s.out ∧ consumer_cs N s cid = some (Path.rb_empty, s))
      ∨ (s.«in» ≠ s.out
          ∧ consumer_cs N s cid = some (Path.dec 0,
              { s with data := store s.data s.out 0, out := rb_next N s.out })
          ∧ Inv N { s with data := store s.data s.out 0, out := rb_next N s.out }) := by
  by_cases hf : s.«in» = s.out
  · exact Or.inl ⟨hf, by simp [consumer_cs, hf]⟩
  · obtain ⟨h1, h2⟩ := inv_rb_dec N s h hf cid
    exact Or.inr ⟨hf, by simp [consumer_cs, hf, h1], h2⟩

theorem rb_dump_loop_total (data : List Int) (n : Nat) :
    ∀ i : Nat, i + n ≤ data.length → ∃ text, rb_dump_loop data i n = some text := by
  induction n with
  | zero => intro i _; exact ⟨"", rfl⟩
  | succ n ih =>
    intro i hi
    obtain ⟨rest, hrest⟩ := ih (i + 1) (by omega)
    have hil : i < data.length := by omega
    have hl : load data (i : Int) = some data[i] := by
      rw [load_natCast]; exact List.getElem?_eq_getElem hil
    refine ⟨toString data[i] ++ " " ++ rest, ?_⟩
    simp only [rb_dump_loop, hl, hrest]

theorem monitor_cs_total (N : Nat) (s : rbf) (hlen : s.data.length = N) :
    ∃ text, monitor_cs N s = some (Path.dump text, s) := by
  obtain ⟨markers, hm⟩ := rb_dump_loop_total s.data N 0 (by omega)
  refine ⟨"in " ++ toString s.«in» ++ " out " ++ toString s.out ++ "   [" ++ markers ++ "]\n", ?_⟩
  simp only [monitor_cs, rb_dump, hm]

theorem monitor_cs_state (N : Nat) (s q : rbf) (e : Path)
    (h : monitor_cs N s = some (e, q)) : q = s := by
  unfold monitor_cs at h
  split at h
  · exact absurd h (by simp)
  · exact (congrArg Prod.snd (Option.some.inj h)).symm

theorem inv_sighdl (N : Nat) (s : rbf) (h : Inv N s) (signum : Int) :
    Inv N (sighdl_cs s signum) :=
  ⟨h.len, h.in_lo, h.in_hi, h.out_lo, h.out_hi, h.slots, h.count⟩

theorem inv_step (N : Nat) (hN : 2 ≤ N) (a : Action) (s q : rbf) (e : Path)
    (h : Inv N s) (hs : step N a s = some (e, q)) : Inv N q := by
  cases a with
  | producer pid =>
    rcases producer_cs_cases N hN s h pid with ⟨_, h1⟩ | ⟨_, h1, h2⟩
    · rw [show step N (Action.producer pid) s = producer_cs N s pid from rfl, h1] at hs
      have hq : s = q := congrArg Prod.snd (Option.some.inj hs)
      exact hq ▸ h
    · rw [show step N (Action.producer pid) s = producer_cs N s pid from rfl, h1] at hs
      have hq : _ = q := congrArg Prod.snd (Option.some.inj hs)
      exact hq ▸ h2
  | consumer cid =>
    rcases consumer_cs_cases N s h cid with ⟨_, h1⟩ | ⟨_, h1, h2⟩
    · rw [show step N (Action.consumer cid) s = consumer_cs N s cid from rfl, h1] at hs
      have hq : s = q := congrArg Prod.snd (Option.some.inj hs)
      exact hq ▸ h
    · rw [show step N (Action.consumer cid) s = consumer_cs N s cid from rfl, h1] at hs
      have hq : _ = q := congrArg Prod.snd (Option.some.inj hs)
      exact hq ▸ h2
  | monitor =>
    rw [monitor_cs_state N s q e hs]; exact h
  | sighdl signum =>
    have hq : sighdl_cs s signum = q := congrArg Prod.snd (Option.some.inj hs)
    rw [← hq]; exact inv_sighdl N s h signum

theorem exec_cons (N : Nat) (a : Action) (rest : List Action) (p r : rbf) (tr : List Path)
    (h : exec N (a :: rest) p = some (tr, r)) :
    ∃ e q es, step N a p = some (e, q) ∧ exec N rest q = some (es, r) ∧ tr = e :: es := by
  simp only [exec] at h
  split at h
  · exact absurd h (by simp)
  · rename_i e q hst
    split at h
    · exact absurd h (by simp)
    · rename_i es r2 hex
      have h2 := Option.some.inj h
      have hr : r2 = r := congrArg Prod.snd h2
      have ht : e :: es = tr := congrArg Prod.fst h2
      exact ⟨e, q, es, hst, hr ▸ hex, ht.symm⟩

theorem inv_exec (N : Nat) (hN : 2 ≤ N) (acts : List Action) :
    ∀ (p r : rbf) (tr : List Path), Inv N p → exec N acts p = some (tr, r) → Inv N r := by
  induction acts with
  | nil =>
    intro p r tr hp h
    have hr : p = r := congrArg Prod.snd (Option.some.inj h)
    exact hr ▸ hp
  | cons a rest ih =>
    intro p r tr hp h
    obtain ⟨e, q, es, hst, hex, _⟩ := exec_cons N a rest p r tr h
    exact ih q r es (inv_step N hN a p q e hp hst) hex

theorem reachable_inv (N : Nat) (hN : 2 ≤ N) (s : rbf) (h : Reachable N s) : Inv N s := by
  obtain ⟨m, k, p0, acts, tr, h0, hex⟩ := h
  exact inv_exec N hN acts p0 s tr (inv_init N (by omega) m k p0 h0) hex

/-- Under the invariant every action returns, keeps the invariant, and a call of `rb_inc`
or `rb_dec` it makes returns 0. -/
theorem step_total (N : Nat) (hN : 2 ≤ N) (a : Action) (p : rbf) (h : Inv N p) :
    ∃ e q, step N a p = some (e, q) ∧ Inv N q
      ∧ (∀ ret, e = Path.inc ret → ret = 0) ∧ (∀ ret, e = Path.dec ret → ret = 0) := by
  cases a with
  | producer pid =>
    rcases producer_cs_cases N hN p h pid with ⟨_, h1⟩ | ⟨_, h1, h2⟩
    · exact ⟨_, _, h1, h, fun _ he => (by cases he), fun _ he => (by cases he)⟩
    · exact ⟨_, _, h1, h2, fun _ he => (by cases he; rfl), fun _ he => (by cases he)⟩
  | consumer cid =>
    rcases consumer_cs_cases N p h cid with ⟨_, h1⟩ | ⟨_, h1, h2⟩
    · exact ⟨_, _, h1, h, fun _ he => (by cases he), fun _ he => (by cases he)⟩
    · exact ⟨_, _, h1, h2, fun _ he => (by cases he), fun _ he => (by cases he; rfl)⟩
  | monitor =>
    obtain ⟨text, ht⟩ := monitor_cs_total N p h.len
    exact ⟨_, _, ht, h, fun _ he => (by cases he), fun _ he => (by cases he)⟩
  | sighdl signum =>
    exact ⟨_, _, rfl, inv_sighdl N p h signum, fun _ he => (by cases he), fun _ he => (by cases he)⟩

theorem exec_total (N : Nat) (hN : 2 ≤ N) (acts : List Action) :
    ∀ p : rbf, Inv N p → ∃ tr r, exec N acts p = some (tr, r)
      ∧ (∀ ret, Path.inc ret ∈ tr → ret = 0) ∧ (∀ ret, Path.dec ret ∈ tr → ret = 0) := by
  induction acts with
  | nil =>
    intro p _
    exact ⟨[], p, rfl, fun _ hm => (by cases hm), fun _ hm => (by cases hm)⟩
  | cons a rest ih =>
    intro p hp
    obtain ⟨e, q, hst, hq, he1, he2⟩ := step_total N hN a p hp
    obtain ⟨es, r, hex, hr1, hr2⟩ := ih q hq
    refine ⟨e :: es, r, by simp only [exec, hst, hex], ?_, ?_⟩
    · intro ret hm
      rcases List.mem_cons.mp hm with hm | hm
      · exact he1 ret hm.symm
      · exact hr1 ret hm
    · intro ret hm
      rcases List.mem_cons.mp hm with hm | hm
      · exact he2 ret hm.symm
      · exact hr2 ret hm

/-! ## How one action changes the markers -/

/-- A producer critical section leaves the array alone or writes 1 over a 0 at `in`. -/
theorem producer_cs_data (N : Nat) (s q : rbf) (pid : Int) (e : Path)
    (h : producer_cs N s pid = some (e, q)) :
    q.data = s.data
      ∨ ∃ k : Nat, s.«in» = (k : Int) ∧ s.data[k]? = some 0 ∧ q.data = s.data.set k 1 := by
  unfold producer_cs at h
  simp only at h
  split at h
  · exact Or.inl (congrArg (fun x => x.2.data) (Option.some.inj h)).symm
  · unfold rb_inc at h
    by_cases h0 : 0 ≤ s.«in»
    · obtain ⟨k, hk⟩ := Int.eq_ofNat_of_zero_le h0
      rw [hk, load_natCast] at h
      cases hv : s.data[k]? with
      | none => rw [hv] at h; exact absurd h (by simp)
      | some v =>
        rw [hv] at h
        by_cases hz : v = 0
        · subst hz
          simp only [ne_eq, not_true_eq_false, if_false, zero_add, store_natCast] at h
          exact Or.inr ⟨k, hk, hv, (congrArg (fun x => x.2.data) (Option.some.inj h)).symm⟩
        · simp only [ne_eq, hz, not_false_eq_true, if_true] at h
          exact Or.inl (congrArg (fun x => x.2.data) (Option.some.inj h)).symm
    · simp only [load, h0, if_false] at h
      exact absurd h (by simp)

/-- A consumer critical section leaves the array alone or writes 0 over a 1 at `out`. -/
theorem consumer_cs_data (N : Nat) (s q : rbf) (cid : Int) (e : Path)
    (h : consumer_cs N s cid = some (e, q)) :
    q.data = s.data
      ∨ ∃ k : Nat, s.out = (k : Int) ∧ s.data[k]? = some 1 ∧ q.data = s.data.set k 0 := by
  unfold consumer_cs at h
  simp only at h
  split at h
  · exact Or.inl (congrArg (fun x => x.2.data) (Option.some.inj h)).symm
  · unfold rb_dec at h
    by_cases h0 : 0 ≤ s.out
    · obtain ⟨k, hk⟩ := Int.eq_ofNat_of_zero_le h0
      rw [hk, load_natCast] at h
      cases hv : s.data[k]? with
      | none => rw [hv] at h; exact absurd h (by simp)
      | some v =>
        rw [hv] at h
        by_cases hz : v = 1
        · subst hz
          simp only [ne_eq, not_true_eq_false, if_false, sub_self, store_natCast] at h
          exact Or.inr ⟨k, hk, hv, (congrArg (fun x => x.2.data) (Option.some.inj h)).symm⟩
        · simp only [ne_eq, hz, not_false_eq_true, if_true] at h
          exact Or.inl (congrArg (fun x => x.2.data) (Option.some.inj h)).symm
    · simp only [load, h0, if_false] at h
      exact absurd h (by simp)

theorem getElem?_set_one (data : List Int) (k i : Nat) (v w : Int)
    (hk : data[k]? = some v) :
    (data.set k w)[i]? = if k = i then some w else data[i]? := by
  have hkl : k < data.length := by
    by_contra hc
    rw [List.getElem?_eq_none (by omega)] at hk
    exact absurd hk (by simp)
  rw [List.getElem?_set]
  simp [hkl]

/-- A marker equal to 1 stays 1 across an action unless a consumer drains it. -/
theorem step_keeps_one (N : Nat) (a : Action) (s q : rbf) (e : Path) (i : Nat)
    (h : step N a s = some (e, q)) (h1 : load s.data (i : Int) = some 1) :
    load q.data (i : Int) = some 1
      ∨ ∃ cid, a = Action.consumer cid ∧ load q.data (i : Int) = some 0 := by
  rw [load_natCast] at h1 ⊢
  cases a with
  | producer pid =>
    rcases producer_cs_data N s q pid e h with hd | ⟨k, _, hk, hd⟩
    · rw [hd]; exact Or.inl h1
    · rw [hd, getElem?_set_one _ _ _ _ _ hk]
      by_cases hki : k = i
      · rw [hki, h1] at hk
        exact absurd (Option.some.inj hk) (by decide)
      · rw [if_neg hki]; exact Or.inl h1
  | consumer cid =>
    rcases consumer_cs_data N s q cid e h with hd | ⟨k, _, hk, hd⟩
    · rw [hd]; exact Or.inl h1
    · rw [hd, getElem?_set_one _ _ _ _ _ hk]
      by_cases hki : k = i
      · rw [if_pos hki]; exact Or.inr ⟨cid, rfl, rfl⟩
      · rw [if_neg hki]; exact Or.inl h1
  | monitor =>
    rw [monitor_cs_state N s q e h]; exact Or.inl h1
  | sighdl signum =>
    have hq : sighdl_cs s signum = q := congrArg Prod.snd (Option.some.inj h)
    rw [← hq]; exact Or.inl h1

/-- A marker equal to 0 stays 0 across an action unless a producer fills it. -/
theorem step_keeps_zero (N : Nat) (a : Action) (s q : rbf) (e : Path) (i : Nat)
    (h : step N a s = some (e, q)) (h0 : load s.data (i : Int) = some 0) :
    load q.data (i : Int) = some 0
      ∨ ∃ pid, a = Action.producer pid ∧ load q.data (i : Int) = some 1 := by
  rw [load_natCast] at h0 ⊢
  cases a with
  | producer pid =>
    rcases producer_cs_data N s q pid e h with hd | ⟨k, _, hk, hd⟩
    · rw [hd]; exact Or.inl h0
    · rw [hd, getElem?_set_one _ _ _ _ _ hk]
      by_cases hki : k = i
      · rw [if_pos hki]; exact Or.inr ⟨pid, rfl, rfl⟩
      · rw [if_neg hki]; exact Or.inl h0
  | consumer cid =>
    rcases consumer_cs_data N s q cid e h with hd | ⟨k, _, hk, hd⟩
    · rw [hd]; exact Or.inl h0
    · rw [hd, getElem?_set_one _ _ _ _ _ hk]
      by_cases hki : k = i
      · rw [hki, h0] at hk
        exact absurd (Option.some.inj hk) (by decide)
      · rw [if_neg hki]; exact Or.inl h0
  | monitor =>
    rw [monitor_cs_state N s q e h]; exact Or.inl h0
  | sighdl signum =>
    have hq : sighdl_cs s signum = q := congrArg Prod.snd (Option.some.inj h)
    rw [← hq]; exact Or.inl h0

/-- If a marker is 1 before a schedule and 0 after it, a consumer step of the schedule
drained it. -/
theorem drain_within_of_flip (N : Nat) (i : Nat) (mid : List Action) :
    ∀ (s r : rbf) (tr : List Path), exec N mid s = some (tr, r) →
      load s.data (i : Int) = some 1 → load r.data (i : Int) = some 0 →
      DrainWithin N i mid s := by
  induction mid with
  | nil =>
    intro s r tr h h1 h0
    have hr : s = r := congrArg Prod.snd (Option.some.inj h)
    rw [← hr, h1] at h0
    exact absurd (Option.some.inj h0) (by decide)
  | cons a rest ih =>
    intro s r tr h h1 h0
    obtain ⟨e, q, es, hst, hex, _⟩ := exec_cons N a rest s r tr h
    rcases step_keeps_one N a s q e i hst h1 with hq | ⟨cid, ha, hq⟩
    · obtain ⟨pre, cid, post, trp, u, e2, v, hmid, hpre, hcs, hdr⟩ := ih q r es hex hq h0
      refine ⟨a :: pre, cid, post, e :: trp, u, e2, v, ?_, ?_, hcs, hdr⟩
      · rw [hmid]; rfl
      · simp only [exec, hst, hpre]
    · subst ha
      exact ⟨[], cid, rest, [], s, e, q, rfl, rfl, hst, h1, hq⟩

/-- If a marker is 0 before a schedule and 1 after it, a producer step of the schedule
filled it. -/
theorem fill_within_of_flip (N : Nat) (i : Nat) (mid : List Action) :
    ∀ (s r : rbf) (tr : List Path), exec N mid s = some (tr, r) →
      load s.data (i : Int) = some 0 → load r.data (i : Int) = some 1 →
      FillWithin N i mid s := by
  induction mid with
  | nil =>
    intro s r tr h h0 h1
    have hr : s = r := congrArg Prod.snd (Option.some.inj h)
    rw [← hr, h0] at h1
    exact absurd (Option.some.inj h1) (by decide)
  | cons a rest ih =>
    intro s r tr h h0 h1
    obtain ⟨e, q, es, hst, hex, _⟩ := exec_cons N a rest s r tr h
    rcases step_keeps_zero N a s q e i hst h0 with hq | ⟨pid, ha, hq⟩
    · obtain ⟨pre, pid, post, trp, u, e2, v, hmid, hpre, hcs, hfl⟩ := ih q r es hex hq h1
      refine ⟨a :: pre, pid, post, e :: trp, u, e2, v, ?_, ?_, hcs, hfl⟩
      · rw [hmid]; rfl
      · simp only [exec, hst, hpre]
    · subst ha
      exact ⟨[], pid, rest, [], s, e, q, rfl, rfl, hst, h0, hq⟩

/-- For `N ≥ 2` the producer's condition says that the circular distance is `N - 1`. -/
theorem producer_full_dist (N : Nat) (hN : 2 ≤ N) (i o : Int)
    (hi0 : 0 ≤ i) (hiN : i < (N : Int)) (ho0 : 0 ≤ o) (hoN : o < (N : Int)) :
    producer_full N i o ↔ (i - o) % (N : Int) = (N : Int) - 1 := by
  rw [cdist_eq N i o hi0 hiN ho0 hoN]
  unfold producer_full
  constructor
  · intro h; split_ifs <;> omega
  · intro h; split_ifs at h <;> omega

/-! ## Filling the buffer from a state with `out = 0` -/

theorem produce_run (N : Nat) (hN : 2 ≤ N) (pids : List Int) :
    ∀ s : rbf, Inv N s → s.out = 0 → s.«in» + (pids.length : Int) ≤ (N : Int) - 1 →
      ∃ r, exec N (pids.map Action.producer) s
            = some (List.replicate pids.length (Path.inc 0), r)
        ∧ Inv N r ∧ r.out = 0 ∧ r.«in» = s.«in» + (pids.length : Int) := by
  induction pids with
  | nil =>
    intro s hs ho _
    exact ⟨s, rfl, hs, ho, by simp⟩
  | cons pid rest ih =>
    intro s hs ho hle
    have hlen : ((pid :: rest).length : Int) = (rest.length : Int) + 1 := by simp
    rw [hlen] at hle
    have hi0 := hs.in_lo
    rcases producer_cs_cases N hN s hs pid with ⟨hf, _⟩ | ⟨_, h1, h2⟩
    · unfold producer_full at hf
      omega
    · have hnx : rb_next N s.«in» = s.«in» + 1 := by
        rw [rb_next_eq N _ hs.in_lo hs.in_hi, if_neg (by omega)]
      obtain ⟨r, hex, hr, hro, hri⟩ := ih _ h2 ho (by
        show rb_next N s.«in» + (rest.length : Int) ≤ (N : Int) - 1
        omega)
      refine ⟨r, ?_, hr, hro, ?_⟩
      · have hst : step N (Action.producer pid) s = _ := h1
        simp only [List.map_cons, exec, hst, hex, List.length_cons, List.replicate_succ]
      · rw [hri, hlen]
        show rb_next N s.«in» + (rest.length : Int) = s.«in» + ((rest.length : Int) + 1)
        omega

theorem load_store_ne (data : List Int) (idx j v : Int) (h0 : 0 ≤ idx) (hne : j ≠ idx) :
    load (store data idx v) j = load data j := by
  unfold load store
  split
  · rename_i hj
    rw [List.getElem?_set_ne]
    intro hc
    apply hne
    have h1 := Int.toNat_of_nonneg h0
    have h2 := Int.toNat_of_nonneg hj
    omega
  · rfl

theorem load_store_eq (data : List Int) (idx v w : Int) (h : load data idx = some w) :
    load (store data idx v) idx = some v := by
  unfold load at h ⊢
  unfold store
  split at h
  · rename_i h0
    rw [if_pos h0, getElem?_set_one _ _ _ _ _ h, if_pos rfl]
  · exact absurd h (by simp)

theorem load_total (data : List Int) (idx : Int) (h0 : 0 ≤ idx)
    (hN : idx < (data.length : Int)) : ∃ v, load data idx = some v := by
  unfold load
  rw [if_pos h0]
  have h1 := Int.toNat_of_nonneg h0
  exact ⟨_, List.getElem?_eq_getElem (by omega)⟩

/-! ## Claims -/

/-- C1 (slot-occupancy invariant): for `N ≥ 2`, in every state reachable from the buffer
built by `rb_init` through producer and consumer critical sections, monitor dumps and
`sighdl` calls, the array has `N` slots and slot `i < N` holds 1 exactly when `i` lies in
the circular range `[out, in)`, that is `(i - out) mod N < (in - out) mod N`; every other
slot holds 0. -/
theorem slot_occupancy_invariant (N : Nat) (hN : 2 ≤ N) (s : rbf) (h : Reachable N s) :
    s.data.length = N ∧
    ∀ i : Nat, i < N →
      (load s.data (i : Int) = some 1
          ↔ ((i : Int) - s.out) % (N : Int) < (s.«in» - s.out) % (N : Int))
      ∧ (¬ (((i : Int) - s.out) % (N : Int) < (s.«in» - s.out) % (N : Int))
          → load s.data (i : Int) = some 0) := by
  have hinv := reachable_inv N hN s h
  refine ⟨hinv.len, ?_⟩
  intro i hi
  rw [load_natCast, hinv.slots i hi]
  constructor
  · constructor
    · intro h1
      by_contra hc
      rw [if_neg hc] at h1
      exact absurd (Option.some.inj h1) (by decide)
    · intro h1
      rw [if_pos h1]
  · intro h1
    rw [if_neg h1]

/-- Witness of C1 at the program's size `RBF_SIZE = 32`: the state after two producer
steps, a dump, a consumer step and a terminate request. -/
theorem slot_occupancy_invariant_witness :
    Reachable RBF_SIZE ⟨0 :: 1 :: List.replicate 30 0, 2, 1, 1⟩ ∧
    ((⟨0 :: 1 :: List.replicate 30 0, 2, 1, 1⟩ : rbf).data.length = RBF_SIZE ∧
    ∀ i : Nat, i < RBF_SIZE →
      (load (⟨0 :: 1 :: List.replicate 30 0, 2, 1, 1⟩ : rbf).data (i : Int) = some 1
          ↔ ((i : Int) - 1) % (RBF_SIZE : Int) < (2 - 1) % (RBF_SIZE : Int))
      ∧ (¬ (((i : Int) - 1) % (RBF_SIZE : Int) < (2 - 1) % (RBF_SIZE : Int))
          → load (⟨0 :: 1 :: List.replicate 30 0, 2, 1, 1⟩ : rbf).data (i : Int) = some 0)) :=
  have hr : Reachable RBF_SIZE ⟨0 :: 1 :: List.replicate 30 0, 2, 1, 1⟩ :=
    ⟨true, true, ⟨List.replicate 32 0, 0, 0, 0⟩,
      [Action.producer 0, Action.producer 2, Action.monitor, Action.consumer 1, Action.sighdl 2],
      [Path.inc 0, Path.inc 0,
        Path.dump "in 2 out 0   [1 1 0 0 0 0 0 0 0 0 0 0 0 0 0 0 0 0 0 0 0 0 0 0 0 0 0 0 0 0 0 0 ]\n",
        Path.dec 0, Path.terminate],
      by decide, by decide⟩
  ⟨hr, slot_occupancy_invariant RBF_SIZE (by decide) _ hr⟩

/-- C2 (count invariant): for `N ≥ 2`, in every reachable state the number of Occupied
markers (slots of the `N`-slot array holding 1) equals the circular distance
`(in - out) mod N`. -/
theorem occupied_count_invariant (N : Nat) (hN : 2 ≤ N) (s : rbf) (h : Reachable N s) :
    s.data.length = N ∧ (occupied s : Int) = (s.«in» - s.out) % (N : Int) :=
  ⟨(reachable_inv N hN s h).len, (reachable_inv N hN s h).count⟩

/-- Witness of C2 at `N = 4`: three producer steps and one consumer step leave two
Occupied markers, and `(3 - 1) mod 4 = 2`. -/
theorem occupied_count_invariant_witness :
    Reachable 4 ⟨[0, 1, 1, 0], 3, 1, 0⟩ ∧
    ((⟨[0, 1, 1, 0], 3, 1, 0⟩ : rbf).data.length = 4
      ∧ (occupied ⟨[0, 1, 1, 0], 3, 1, 0⟩ : Int) = (3 - 1) % ((4 : Nat) : Int)) :=
  have hr : Reachable 4 ⟨[0, 1, 1, 0], 3, 1, 0⟩ :=
    ⟨true, true, ⟨[0, 0, 0, 0], 0, 0, 0⟩,
      [Action.producer 0, Action.producer 1, Action.producer 2, Action.consumer 0],
      [Path.inc 0, Path.inc 0, Path.inc 0, Path.dec 0], by decide, by decide⟩
  ⟨hr, occupied_count_invariant 4 (by decide) _ hr⟩

/-- C3 (InvariantViolation is unreachable): for `N ≥ 2`, in every reachable state the
call `rb_inc(p, in, pid)` made when the producer's full test is false returns 0, the call
`rb_dec(p, out, cid)` made when `in != out` returns 0, and every schedule of critical
sections run from that state returns with every `rb_inc` and `rb_dec` call in it having
returned 0: the error branch (return value -1) is never taken. -/
theorem invariant_violation_unreachable (N : Nat) (hN : 2 ≤ N) (s : rbf)
    (h : Reachable N s) :
    (∀ pid : Int, ¬ producer_full N s.«in» s.out → ∃ q, rb_inc N s s.«in» pid = some (0, q))
    ∧ (∀ cid : Int, s.«in» ≠ s.out → ∃ q, rb_dec N s s.out cid = some (0, q))
    ∧ (∀ pid : Int, ∃ e q, producer_cs N s pid = some (e, q) ∧ e ≠ Path.inc (-1))
    ∧ (∀ cid : Int, ∃ e q, consumer_cs N s cid = some (e, q) ∧ e ≠ Path.dec (-1))
    ∧ (∀ acts : List Action, ∃ tr r, exec N acts s = some (tr, r)
        ∧ (∀ ret, Path.inc ret ∈ tr → ret = 0) ∧ (∀ ret, Path.dec ret ∈ tr → ret = 0)) := by
  have hinv := reachable_inv N hN s h
  refine ⟨?_, ?_, ?_, ?_, ?_⟩
  · intro pid hf
    exact ⟨_, (inv_rb_inc N hN s hinv hf pid).1⟩
  · intro cid hne
    exact ⟨_, (inv_rb_dec N s hinv hne cid).1⟩
  · intro pid
    rcases producer_cs_cases N hN s hinv pid with ⟨_, h1⟩ | ⟨_, h1, _⟩
    · exact ⟨_, _, h1, by simp⟩
    · exact ⟨_, _, h1, by simp⟩
  · intro cid
    rcases consumer_cs_cases N s hinv cid with ⟨_, h1⟩ | ⟨_, h1, _⟩
    · exact ⟨_, _, h1, by simp⟩
    · exact ⟨_, _, h1, by simp⟩
  · intro acts
    exact exec_total N hN acts s hinv

/-- Witness of C3 at `N = 4`: the state after two producer steps. -/
theorem invariant_violation_unreachable_witness :
    Reachable 4 ⟨[1, 1, 0, 0], 2, 0, 0⟩ ∧
    ((∀ pid : Int, ¬ producer_full 4 2 0 →
        ∃ q, rb_inc 4 ⟨[1, 1, 0, 0], 2, 0, 0⟩ 2 pid = some (0, q))
    ∧ (∀ cid : Int, (2 : Int) ≠ 0 → ∃ q, rb_dec 4 ⟨[1, 1, 0, 0], 2, 0, 0⟩ 0 cid = some (0, q))
    ∧ (∀ pid : Int, ∃ e q,
        producer_cs 4 ⟨[1, 1, 0, 0], 2, 0, 0⟩ pid = some (e, q) ∧ e ≠ Path.inc (-1))
    ∧ (∀ cid : Int, ∃ e q,
        consumer_cs 4 ⟨[1, 1, 0, 0], 2, 0, 0⟩ cid = some (e, q) ∧ e ≠ Path.dec (-1))
    ∧ (∀ acts : List Action, ∃ tr r, exec 4 acts ⟨[1, 1, 0, 0], 2, 0, 0⟩ = some (tr, r)
        ∧ (∀ ret, Path.inc ret ∈ tr → ret = 0) ∧ (∀ ret, Path.dec ret ∈ tr → ret = 0))) :=
  have hr : Reachable 4 ⟨[1, 1, 0, 0], 2, 0, 0⟩ :=
    ⟨true, true, ⟨[0, 0, 0, 0], 0, 0, 0⟩, [Action.producer 0, Action.producer 1],
      [Path.inc 0, Path.inc 0], by decide, by decide⟩
  ⟨hr, invariant_violation_unreachable 4 (by decide) _ hr⟩

/-- C4 (no double-produce, no double-consume): for `N ≥ 2`, in every reachable state every
marker is 0 or 1; a producer critical section changes at most one marker and only from 0 to
1; a consumer critical section changes at most one marker and only from 1 to 0; between two
producer steps that fill the same slot some consumer step drains that slot, and between
two consumer steps that drain the same slot some producer step fills it. -/
theorem no_double_produce_consume (N : Nat) (hN : 2 ≤ N) (s : rbf) (h : Reachable N s) :
    (∀ i : Nat, i < N → load s.data (i : Int) = some 0 ∨ load s.data (i : Int) = some 1)
    ∧ (∀ (pid : Int) (e : Path) (q : rbf), producer_cs N s pid = some (e, q) →
        (∀ i j : Nat, load q.data (i : Int) ≠ load s.data (i : Int) →
            load q.data (j : Int) ≠ load s.data (j : Int) → i = j)
        ∧ (∀ i : Nat, load q.data (i : Int) ≠ load s.data (i : Int) → fills s q i))
    ∧ (∀ (cid : Int) (e : Path) (q : rbf), consumer_cs N s cid = some (e, q) →
        (∀ i j : Nat, load q.data (i : Int) ≠ load s.data (i : Int) →
            load q.data (j : Int) ≠ load s.data (j : Int) → i = j)
        ∧ (∀ i : Nat, load q.data (i : Int) ≠ load s.data (i : Int) → drains s q i))
    ∧ (∀ (i : Nat) (pid : Int) (e1 : Path) (s1 : rbf) (mid : List Action) (tr : List Path)
        (s2 : rbf) (pid2 : Int) (e2 : Path) (s3 : rbf),
        producer_cs N s pid = some (e1, s1) → fills s s1 i →
        exec N mid s1 = some (tr, s2) →
        producer_cs N s2 pid2 = some (e2, s3) → fills s2 s3 i →
        DrainWithin N i mid s1)
    ∧ (∀ (i : Nat) (cid : Int) (e1 : Path) (s1 : rbf) (mid : List Action) (tr : List Path)
        (s2 : rbf) (cid2 : Int) (e2 : Path) (s3 : rbf),
        consumer_cs N s cid = some (e1, s1) → drains s s1 i →
        exec N mid s1 = some (tr, s2) →
        consumer_cs N s2 cid2 = some (e2, s3) → drains s2 s3 i →
        FillWithin N i mid s1) := by
  have hinv := reachable_inv N hN s h
  refine ⟨?_, ?_, ?_, ?_, ?_⟩
  · intro i hi
    rw [load_natCast, hinv.slots i hi]
    split
    · exact Or.inr rfl
    · exact Or.inl rfl
  · intro pid e q hq
    rcases producer_cs_data N s q pid e hq with hd | ⟨k, _, hk, hd⟩
    · exact ⟨fun i _ hi _ => absurd (by rw [hd]) hi, fun i hi => absurd (by rw [hd]) hi⟩
    · have hch : ∀ i : Nat, load q.data (i : Int) ≠ load s.data (i : Int) → k = i := by
        intro i hi
        by_contra hne
        apply hi
        rw [load_natCast, load_natCast, hd, getElem?_set_one _ _ _ _ _ hk, if_neg hne]
      refine ⟨fun i j hi hj => (hch i hi).symm.trans (hch j hj), ?_⟩
      intro i hi
      have hki := hch i hi
      subst hki
      refine ⟨by rw [load_natCast]; exact hk, ?_⟩
      rw [load_natCast, hd, getElem?_set_one _ _ _ _ _ hk, if_pos rfl]
  · intro cid e q hq
    rcases consumer_cs_data N s q cid e hq with hd | ⟨k, _, hk, hd⟩
    · exact ⟨fun i _ hi _ => absurd (by rw [hd]) hi, fun i hi => absurd (by rw [hd]) hi⟩
    · have hch : ∀ i : Nat, load q.data (i : Int) ≠ load s.data (i : Int) → k = i := by
        intro i hi
        by_contra hne
        apply hi
        rw [load_natCast, load_natCast, hd, getElem?_set_one _ _ _ _ _ hk, if_neg hne]
      refine ⟨fun i j hi hj => (hch i hi).symm.trans (hch j hj), ?_⟩
      intro i hi
      have hki := hch i hi
      subst hki
      refine ⟨by rw [load_natCast]; exact hk, ?_⟩
      rw [load_natCast, hd, getElem?_set_one _ _ _ _ _ hk, if_pos rfl]
  · intro i pid e1 s1 mid tr s2 pid2 e2 s3 _ hf1 hex _ hf2
    exact drain_within_of_flip N i mid s1 s2 tr hex hf1.2 hf2.1
  · intro i cid e1 s1 mid tr s2 cid2 e2 s3 _ hd1 hex _ hd2
    exact fill_within_of_flip N i mid s1 s2 tr hex hd1.2 hd2.1

/-- Witness of C4 at `N = 4`, from the initial state: the first producer step fills slot
0, and after the schedule produce, produce, consume, produce, consume a producer step
fills slot 0 again; the drain of slot 0 in between is the first consumer step. -/
theorem no_double_produce_consume_witness :
    Reachable 4 ⟨[0, 0, 0, 0], 0, 0, 0⟩ ∧
    ((∀ i : Nat, i < 4 → load [0, 0, 0, 0] (i : Int) = some 0 ∨ load [0, 0, 0, 0] (i : Int) = some 1)
    ∧ DrainWithin 4 0
        [Action.producer 1, Action.producer 2, Action.consumer 0, Action.producer 0,
          Action.consumer 1]
        ⟨[1, 0, 0, 0], 1, 0, 0⟩) :=
  have hr : Reachable 4 ⟨[0, 0, 0, 0], 0, 0, 0⟩ :=
    ⟨true, true, ⟨[0, 0, 0, 0], 0, 0, 0⟩, [], [], by decide, by decide⟩
  have hc := no_double_produce_consume 4 (by decide) ⟨[0, 0, 0, 0], 0, 0, 0⟩ hr
  ⟨hr, hc.1,
    hc.2.2.2.1 0 0 (Path.inc 0) ⟨[1, 0, 0, 0], 1, 0, 0⟩
      [Action.producer 1, Action.producer 2, Action.consumer 0, Action.producer 0,
        Action.consumer 1]
      [Path.inc 0, Path.inc 0, Path.dec 0, Path.inc 0, Path.dec 0]
      ⟨[0, 0, 1, 1], 0, 2, 0⟩ 2 (Path.inc 0) ⟨[1, 0, 1, 1], 1, 2, 0⟩
      (by decide) ⟨by decide, by decide⟩ (by decide) (by decide) ⟨by decide, by decide⟩⟩

/-- C5 (produce on a full buffer is a no-op): for `N ≥ 2` and every state whose cursors
are in `[0, N)` with circular distance `(in - out) mod N = N - 1`, one producer critical
section takes the `rb full` branch without calling `rb_inc` and leaves the whole state
unchanged; so it does not report a successful produce. -/
theorem produce_full_noop (N : Nat) (hN : 2 ≤ N) (s : rbf) (pid : Int)
    (hi0 : 0 ≤ s.«in») (hiN : s.«in» < (N : Int)) (ho0 : 0 ≤ s.out) (hoN : s.out < (N : Int))
    (hfull : (s.«in» - s.out) % (N : Int) = (N : Int) - 1) :
    producer_cs N s pid = some (Path.rb_full, s)
      ∧ ∀ ret q, producer_cs N s pid ≠ some (Path.inc ret, q) := by
  have hf : producer_full N s.«in» s.out := by
    rw [cdist_eq N _ _ hi0 hiN ho0 hoN] at hfull
    unfold producer_full
    split_ifs at hfull <;> omega
  have h1 : producer_cs N s pid = some (Path.rb_full, s) := by
    simp [producer_cs, hf]
  refine ⟨h1, ?_⟩
  intro ret q hc
  rw [h1] at hc
  exact absurd (congrArg Prod.fst (Option.some.inj hc)) (by simp)

/-- Witness of C5: Scenario B, `N = 4` with 3 Occupied markers. -/
theorem produce_full_noop_witness :
    ((0 : Int) ≤ 3 ∧ (3 : Int) < ((4 : Nat) : Int) ∧ (0 : Int) ≤ 0 ∧ (0 : Int) < ((4 : Nat) : Int)
      ∧ ((3 : Int) - 0) % ((4 : Nat) : Int) = ((4 : Nat) : Int) - 1) ∧
    (producer_cs 4 ⟨[1, 1, 1, 0], 3, 0, 0⟩ 0 = some (Path.rb_full, ⟨[1, 1, 1, 0], 3, 0, 0⟩)
      ∧ ∀ ret q, producer_cs 4 ⟨[1, 1, 1, 0], 3, 0, 0⟩ 0 ≠ some (Path.inc ret, q)) :=
  ⟨⟨by decide, by decide, by decide, by decide, by decide⟩,
    produce_full_noop 4 (by decide) ⟨[1, 1, 1, 0], 3, 0, 0⟩ 0
      (by decide) (by decide) (by decide) (by decide) (by decide)⟩

/-- C6 (consume on an empty buffer is a no-op): for every state with `in == out`, one
consumer critical section takes the `rb empty` branch without calling `rb_dec` and leaves
the whole state unchanged; so it does not report a successful consume. -/
theorem consume_empty_noop (N : Nat) (s : rbf) (cid : Int) (hempty : s.«in» = s.out) :
    consumer_cs N s cid = some (Path.rb_empty, s)
      ∧ ∀ ret q, consumer_cs N s cid ≠ some (Path.dec ret, q) := by
  have h1 : consumer_cs N s cid = some (Path.rb_empty, s) := by
    simp [consumer_cs, hempty]
  refine ⟨h1, ?_⟩
  intro ret q hc
  rw [h1] at hc
  exact absurd (congrArg Prod.fst (Option.some.inj hc)) (by simp)

/-- Witness of C6: Scenario C, the initial (empty) buffer of the program, `N = 32`. -/
theorem consume_empty_noop_witness :
    (0 : Int) = 0 ∧
    (consumer_cs RBF_SIZE ⟨List.replicate 32 0, 0, 0, 0⟩ 1
        = some (Path.rb_empty, ⟨List.replicate 32 0, 0, 0, 0⟩)
      ∧ ∀ ret q, consumer_cs RBF_SIZE ⟨List.replicate 32 0, 0, 0, 0⟩ 1 ≠ some (Path.dec ret, q)) :=
  ⟨rfl, consume_empty_noop RBF_SIZE ⟨List.replicate 32 0, 0, 0, 0⟩ 1 rfl⟩

/-- C7, the claim as stated fails at `N = 1`: with `in = out = 0` the circular distance is
`0 = N - 1`, but the producer's condition is false. -/
theorem producer_full_fails_size_one :
    1 ≤ (1 : Nat) ∧ (0 : Int) ≤ 0 ∧ (0 : Int) < ((1 : Nat) : Int)
      ∧ ((0 : Int) - 0) % ((1 : Nat) : Int) = ((1 : Nat) : Int) - 1
      ∧ ¬ producer_full 1 0 0
      ∧ ¬ (producer_full 1 0 0 ↔ ((0 : Int) - 0) % ((1 : Nat) : Int) = ((1 : Nat) : Int) - 1) := by
  decide

/-- C7 as amended (`N ≥ 2` instead of `N ≥ 1`): for all cursors `in`, `out` in `[0, N)`
the producer's condition is true exactly when the circular distance `(in - out) mod N`
equals `N - 1`, and exactly when `rb_next(in) == out`. -/
theorem producer_full_iff (N : Nat) (hN : 2 ≤ N) (i o : Int)
    (hi0 : 0 ≤ i) (hiN : i < (N : Int)) (ho0 : 0 ≤ o) (hoN : o < (N : Int)) :
    (producer_full N i o ↔ (i - o) % (N : Int) = (N : Int) - 1)
      ∧ (producer_full N i o ↔ rb_next N i = o) := by
  rw [cdist_eq N i o hi0 hiN ho0 hoN, rb_next_eq N i hi0 hiN]
  unfold producer_full
  constructor
  · constructor
    · intro h; split_ifs <;> omega
    · intro h; split_ifs at h <;> omega
  · constructor
    · intro h; split_ifs <;> omega
    · intro h; split_ifs at h <;> omega

/-- Witness of amended C7 at `N = 4` with `in = 3`, `out = 0`. -/
theorem producer_full_iff_witness :
    ((0 : Int) ≤ 3 ∧ (3 : Int) < ((4 : Nat) : Int) ∧ (0 : Int) ≤ 0 ∧ (0 : Int) < ((4 : Nat) : Int)) ∧
    ((producer_full 4 3 0 ↔ ((3 : Int) - 0) % ((4 : Nat) : Int) = ((4 : Nat) : Int) - 1)
      ∧ (producer_full 4 3 0 ↔ rb_next 4 3 = 0)) :=
  ⟨⟨by decide, by decide, by decide, by decide⟩,
    producer_full_iff 4 (by decide) 3 0 (by decide) (by decide) (by decide) (by decide)⟩

/-- C8 (contract of `rb_inc`): for every state with an `N`-slot array and every index
`idx` in `[0, N)`: if `data[idx]` is 0 then `rb_inc` returns 0, the new state has
`data[idx] = 1` and `in = (idx + 1) mod N`, and every other marker, the array size, `out`
and `terminate` are unchanged; if `data[idx]` is not 0 then `rb_inc` returns -1 and the
state is unchanged; one of the two cases applies; the result does not depend on `pid`. -/
theorem rb_inc_contract (N : Nat) (p : rbf) (idx pid : Int) (hlen : p.data.length = N)
    (h0 : 0 ≤ idx) (hN : idx < (N : Int)) :
    (load p.data idx = some 0 →
        ∃ q, rb_inc N p idx pid = some (0, q) ∧ load q.data idx = some 1
          ∧ q.«in» = (idx + 1) % (N : Int)
          ∧ (∀ j : Int, j ≠ idx → load q.data j = load p.data j)
          ∧ q.data.length = N ∧ q.out = p.out ∧ q.terminate = p.terminate)
    ∧ (load p.data idx ≠ some 0 → rb_inc N p idx pid = some (-1, p))
    ∧ (∃ v, load p.data idx = some v)
    ∧ (∀ pid2 : Int, rb_inc N p idx pid2 = rb_inc N p idx pid) := by
  obtain ⟨v, hv⟩ := load_total p.data idx h0 (by rw [hlen]; exact hN)
  refine ⟨?_, ?_, ⟨v, hv⟩, fun _ => rfl⟩
  · intro hz
    refine ⟨{ p with data := store p.data idx 1, «in» := rb_next N idx }, ?_, ?_, ?_, ?_, ?_,
      rfl, rfl⟩
    · simp [rb_inc, hz]
    · exact load_store_eq p.data idx 1 0 hz
    · exact rb_next_emod N idx h0
    · intro j hj
      exact load_store_ne p.data idx j 1 h0 hj
    · show (store p.data idx 1).length = N
      unfold store
      rw [List.length_set]; exact hlen
  · intro hnz
    have hv0 : v ≠ 0 := by
      intro hc; rw [hc] at hv; exact hnz hv
    simp [rb_inc, hv, hv0]

/-- Witness of C8 at `N = 4`: `rb_inc` at the Empty slot 2. -/
theorem rb_inc_contract_witness :
    ((⟨[1, 1, 0, 0], 2, 0, 0⟩ : rbf).data.length = 4 ∧ (0 : Int) ≤ 2 ∧ (2 : Int) < ((4 : Nat) : Int)) ∧
    ((load [1, 1, 0, 0] 2 = some 0 →
        ∃ q, rb_inc 4 ⟨[1, 1, 0, 0], 2, 0, 0⟩ 2 7 = some (0, q) ∧ load q.data 2 = some 1
          ∧ q.«in» = (2 + 1) % ((4 : Nat) : Int)
          ∧ (∀ j : Int, j ≠ 2 → load q.data j = load [1, 1, 0, 0] j)
          ∧ q.data.length = 4 ∧ q.out = 0 ∧ q.terminate = 0)
    ∧ (load [1, 1, 0, 0] 2 ≠ some 0 →
        rb_inc 4 ⟨[1, 1, 0, 0], 2, 0, 0⟩ 2 7 = some (-1, ⟨[1, 1, 0, 0], 2, 0, 0⟩))
    ∧ (∃ v, load [1, 1, 0, 0] 2 = some v)
    ∧ (∀ pid2 : Int, rb_inc 4 ⟨[1, 1, 0, 0], 2, 0, 0⟩ 2 pid2
        = rb_inc 4 ⟨[1, 1, 0, 0], 2, 0, 0⟩ 2 7)) :=
  ⟨⟨by decide, by decide, by decide⟩,
    rb_inc_contract 4 ⟨[1, 1, 0, 0], 2, 0, 0⟩ 2 7 (by decide) (by decide) (by decide)⟩

/-- C9 (contract of `rb_dec`): for every state with an `N`-slot array and every index
`idx` in `[0, N)`: if `data[idx]` is 1 then `rb_dec` returns 0, the new state has
`data[idx] = 0` and `out = (idx + 1) mod N`, and every other marker, the array size, `in`
and `terminate` are unchanged; if `data[idx]` is not 1, in particular if it is 0, then
`rb_dec` returns -1 and the state is unchanged; the result does not depend on `cid`. -/
theorem rb_dec_contract (N : Nat) (p : rbf) (idx cid : Int) (hlen : p.data.length = N)
    (h0 : 0 ≤ idx) (hN : idx < (N : Int)) :
    (load p.data idx = some 1 →
        ∃ q, rb_dec N p idx cid = some (0, q) ∧ load q.data idx = some 0
          ∧ q.out = (idx + 1) % (N : Int)
          ∧ (∀ j : Int, j ≠ idx → load q.data j = load p.data j)
          ∧ q.data.length = N ∧ q.«in» = p.«in» ∧ q.terminate = p.terminate)
    ∧ (load p.data idx = some 0 → rb_dec N p idx cid = some (-1, p))
    ∧ (load p.data idx ≠ some 1 → rb_dec N p idx cid = some (-1, p))
    ∧ (∃ v, load p.data idx = some v)
    ∧ (∀ cid2 : Int, rb_dec N p idx cid2 = rb_dec N p idx cid) := by
  obtain ⟨v, hv⟩ := load_total p.data idx h0 (by rw [hlen]; exact hN)
  have hneg : load p.data idx ≠ some 1 → rb_dec N p idx cid = some (-1, p) := by
    intro hnz
    have hv1 : v ≠ 1 := by
      intro hc; rw [hc] at hv; exact hnz hv
    simp [rb_dec, hv, hv1]
  refine ⟨?_, ?_, hneg, ⟨v, hv⟩, fun _ => rfl⟩
  · intro hz
    refine ⟨{ p with data := store p.data idx 0, out := rb_next N idx }, ?_, ?_, ?_, ?_, ?_,
      rfl, rfl⟩
    · simp [rb_dec, hz]
    · exact load_store_eq p.data idx 0 1 hz
    · exact rb_next_emod N idx h0
    · intro j hj
      exact load_store_ne p.data idx j 0 h0 hj
    · show (store p.data idx 0).length = N
      unfold store
      rw [List.length_set]; exact hlen
  · intro hz
    exact hneg (by rw [hz]; decide)

/-- Witness of C9 at `N = 4`: `rb_dec` at the Occupied slot 3, whose successor wraps to 0. -/
theorem rb_dec_contract_witness :
    ((⟨[0, 0, 0, 1], 0, 3, 0⟩ : rbf).data.length = 4 ∧ (0 : Int) ≤ 3 ∧ (3 : Int) < ((4 : Nat) : Int)) ∧
    ((load [0, 0, 0, 1] 3 = some 1 →
        ∃ q, rb_dec 4 ⟨[0, 0, 0, 1], 0, 3, 0⟩ 3 5 = some (0, q) ∧ load q.data 3 = some 0
          ∧ q.out = (3 + 1) % ((4 : Nat) : Int)
          ∧ (∀ j : Int, j ≠ 3 → load q.data j = load [0, 0, 0, 1] j)
          ∧ q.data.length = 4 ∧ q.«in» = 0 ∧ q.terminate = 0)
    ∧ (load [0, 0, 0, 1] 3 = some 0 →
        rb_dec 4 ⟨[0, 0, 0, 1], 0, 3, 0⟩ 3 5 = some (-1, ⟨[0, 0, 0, 1], 0, 3, 0⟩))
    ∧ (load [0, 0, 0, 1] 3 ≠ some 1 →
        rb_dec 4 ⟨[0, 0, 0, 1], 0, 3, 0⟩ 3 5 = some (-1, ⟨[0, 0, 0, 1], 0, 3, 0⟩))
    ∧ (∃ v, load [0, 0, 0, 1] 3 = some v)
    ∧ (∀ cid2 : Int, rb_dec 4 ⟨[0, 0, 0, 1], 0, 3, 0⟩ 3 cid2
        = rb_dec 4 ⟨[0, 0, 0, 1], 0, 3, 0⟩ 3 5)) :=
  ⟨⟨by decide, by decide, by decide⟩,
    rb_dec_contract 4 ⟨[0, 0, 0, 1], 0, 3, 0⟩ 3 5 (by decide) (by decide) (by decide)⟩

/-- C10 (usable capacity is `N - 1`): for `N ≥ 2`, in every reachable state at most
`N - 1` markers are Occupied, and the producer's full test is true only when exactly
`N - 1` markers are Occupied; the bound is attained: from the state built by `rb_init`,
`N - 1` consecutive producer steps each call `rb_inc` with result 0, leaving `N - 1`
Occupied markers, and the `N`-th producer step takes the `rb full` branch with no state
change. -/
theorem usable_capacity (N : Nat) (hN : 2 ≤ N) :
    (∀ s : rbf, Reachable N s →
        occupied s ≤ N - 1 ∧ (producer_full N s.«in» s.out → occupied s = N - 1))
    ∧ (∃ p0, rb_init N true true = some p0)
    ∧ (∀ (m k : Bool) (p0 : rbf), rb_init N m k = some p0 →
        ∀ pids : List Int, pids.length = N - 1 →
          ∃ r, exec N (pids.map Action.producer) p0
                = some (List.replicate (N - 1) (Path.inc 0), r)
            ∧ occupied r = N - 1
            ∧ ∀ pid : Int, producer_cs N r pid = some (Path.rb_full, r)) := by
  refine ⟨?_, ⟨_, rfl⟩, ?_⟩
  · intro s hs
    have hinv := reachable_inv N hN s hs
    have hc := hinv.count
    have hlt : (s.«in» - s.out) % (N : Int) < (N : Int) := Int.emod_lt_of_pos _ (by omega)
    refine ⟨by omega, ?_⟩
    intro hf
    rw [((producer_full_dist N hN s.«in» s.out hinv.in_lo hinv.in_hi hinv.out_lo hinv.out_hi)).mp hf]
      at hc
    omega
  · intro m k p0 h0 pids hp
    have hinv := inv_init N (by omega) m k p0 h0
    have hp0 := rb_init_eq N m k p0 h0
    have hin : p0.«in» = 0 := by rw [hp0]
    have hout : p0.out = 0 := by rw [hp0]
    obtain ⟨r, hex, hr, hro, hri⟩ := produce_run N hN pids p0 hinv hout (by rw [hin, hp]; omega)
    rw [hp] at hex
    rw [hin, hp] at hri
    have hf : producer_full N r.«in» r.out := by
      unfold producer_full
      rw [hro, hri]
      omega
    refine ⟨r, hex, ?_, ?_⟩
    · have hc := hr.count
      rw [((producer_full_dist N hN r.«in» r.out hr.in_lo hr.in_hi hr.out_lo hr.out_hi)).mp hf]
        at hc
      omega
    · intro pid
      simp [producer_cs, hf]

/-- Witness of C10 at `N = 4`: three producer steps succeed, three markers are Occupied,
and the fourth producer step is rejected as full. -/
theorem usable_capacity_witness :
    2 ≤ 4 ∧
    ((∀ s : rbf, Reachable 4 s →
        occupied s ≤ 4 - 1 ∧ (producer_full 4 s.«in» s.out → occupied s = 4 - 1))
    ∧ (∃ p0, rb_init 4 true true = some p0)
    ∧ (∀ (m k : Bool) (p0 : rbf), rb_init 4 m k = some p0 →
        ∀ pids : List Int, pids.length = 4 - 1 →
          ∃ r, exec 4 (pids.map Action.producer) p0
                = some (List.replicate (4 - 1) (Path.inc 0), r)
            ∧ occupied r = 4 - 1
            ∧ ∀ pid : Int, producer_cs 4 r pid = some (Path.rb_full, r)))
    ∧ exec 4 [Action.producer 0, Action.producer 1, Action.producer 2, Action.producer 0]
        ⟨[0, 0, 0, 0], 0, 0, 0⟩
        = some ([Path.inc 0, Path.inc 0, Path.inc 0, Path.rb_full], ⟨[1, 1, 1, 0], 3, 0, 0⟩) :=
  ⟨by decide, usable_capacity 4 (by decide), by decide⟩

/-! ## Shape of one critical section, for every state -/

theorem producer_cs_shape (N : Nat) (s q : rbf) (pid : Int) (e : Path)
    (h : producer_cs N s pid = some (e, q)) :
    (producer_full N s.«in» s.out ∧ e = Path.rb_full ∧ q = s)
      ∨ (¬ producer_full N s.«in» s.out ∧ load s.data s.«in» ≠ some 0
          ∧ e = Path.inc (-1) ∧ q = s)
      ∨ (¬ producer_full N s.«in» s.out ∧ load s.data s.«in» = some 0 ∧ e = Path.inc 0
          ∧ q = { s with data := store s.data s.«in» 1, «in» := rb_next N s.«in» }) := by
  unfold producer_cs at h
  simp only at h
  by_cases hf : producer_full N s.«in» s.out
  · rw [if_pos hf] at h
    have h2 := Option.some.inj h
    exact Or.inl ⟨hf, (congrArg Prod.fst h2).symm, (congrArg Prod.snd h2).symm⟩
  · rw [if_neg hf] at h
    unfold rb_inc at h
    cases hv : load s.data s.«in» with
    | none => rw [hv] at h; exact absurd h (by simp)
    | some v =>
      rw [hv] at h
      by_cases hz : v = 0
      · subst hz
        simp only [ne_eq, not_true_eq_false, if_false, zero_add] at h
        have h2 := Option.some.inj h
        exact Or.inr (Or.inr ⟨hf, rfl, (congrArg Prod.fst h2).symm, (congrArg Prod.snd h2).symm⟩)
      · simp only [ne_eq, hz, not_false_eq_true, if_true] at h
        have h2 := Option.some.inj h
        refine Or.inr (Or.inl ⟨hf, ?_, (congrArg Prod.fst h2).symm, (congrArg Prod.snd h2).symm⟩)
        intro hc
        exact hz (Option.some.inj hc)

theorem consumer_cs_shape (N : Nat) (s q : rbf) (cid : Int) (e : Path)
    (h : consumer_cs N s cid = some (e, q)) :
    (s.«in» = s.out ∧ e = Path.rb_empty ∧ q = s)
      ∨ (s.«in» ≠ s.out ∧ load s.data s.out ≠ some 1 ∧ e = Path.dec (-1) ∧ q = s)
      ∨ (s.«in» ≠ s.out ∧ load s.data s.out = some 1 ∧ e = Path.dec 0
          ∧ q = { s with data := store s.data s.out 0, out := rb_next N s.out }) := by
  unfold consumer_cs at h
  simp only at h
  by_cases hf : s.«in» = s.out
  · rw [if_pos hf] at h
    have h2 := Option.some.inj h
    exact Or.inl ⟨hf, (congrArg Prod.fst h2).symm, (congrArg Prod.snd h2).symm⟩
  · rw [if_neg hf] at h
    unfold rb_dec at h
    cases hv : load s.data s.out with
    | none => rw [hv] at h; exact absurd h (by simp)
    | some v =>
      rw [hv] at h
      by_cases hz : v = 1
      · subst hz
        simp only [ne_eq, not_true_eq_false, if_false, sub_self] at h
        have h2 := Option.some.inj h
        exact Or.inr (Or.inr ⟨hf, rfl, (congrArg Prod.fst h2).symm, (congrArg Prod.snd h2).symm⟩)
      · simp only [ne_eq, hz, not_false_eq_true, if_true] at h
        have h2 := Option.some.inj h
        refine Or.inr (Or.inl ⟨hf, ?_, (congrArg Prod.fst h2).symm, (congrArg Prod.snd h2).symm⟩)
        intro hc
        exact hz (Option.some.inj hc)

/-- Every action keeps the flag or, for `sighdl`, sets it to 1. -/
theorem step_terminate (N : Nat) (a : Action) (s q : rbf) (e : Path)
    (h : step N a s = some (e, q)) :
    q.terminate = s.terminate ∨ ((∃ signum, a = Action.sighdl signum) ∧ q.terminate = 1) := by
  cases a with
  | producer pid =>
    rcases producer_cs_shape N s q pid e h with ⟨_, _, hq⟩ | ⟨_, _, _, hq⟩ | ⟨_, _, _, hq⟩ <;>
      exact Or.inl (by rw [hq])
  | consumer cid =>
    rcases consumer_cs_shape N s q cid e h with ⟨_, _, hq⟩ | ⟨_, _, _, hq⟩ | ⟨_, _, _, hq⟩ <;>
      exact Or.inl (by rw [hq])
  | monitor =>
    exact Or.inl (by rw [monitor_cs_state N s q e h])
  | sighdl signum =>
    have hq : sighdl_cs s signum = q := congrArg Prod.snd (Option.some.inj h)
    exact Or.inr ⟨⟨signum, rfl⟩, by rw [← hq]; rfl⟩

theorem exec_terminate (N : Nat) (acts : List Action) :
    ∀ (s r : rbf) (tr : List Path), exec N acts s = some (tr, r) →
      (s.terminate ≠ 0 → r.terminate ≠ 0)
      ∧ (s.terminate = 1 → r.terminate = 1)
      ∧ (s.terminate = 0 ∨ s.terminate = 1 → r.terminate = 0 ∨ r.terminate = 1) := by
  induction acts with
  | nil =>
    intro s r tr h
    have hr : s = r := congrArg Prod.snd (Option.some.inj h)
    rw [← hr]
    exact ⟨id, id, id⟩
  | cons a rest ih =>
    intro s r tr h
    obtain ⟨e, q, es, hst, hex, _⟩ := exec_cons N a rest s r tr h
    obtain ⟨i1, i2, i3⟩ := ih q r es hex
    rcases step_terminate N a s q e hst with hq | ⟨_, hq⟩
    · rw [hq] at i1 i2 i3
      exact ⟨i1, i2, i3⟩
    · have hq0 : q.terminate ≠ 0 := by rw [hq]; decide
      exact ⟨fun _ => i1 hq0, fun _ => i2 hq, fun _ => i3 (Or.inr hq)⟩

/-! ## Array size and cursor ranges, for `N ≥ 1` -/

theorem rng_of_inv (N : Nat) (s : rbf) (h : Inv N s) : Rng N s :=
  ⟨h.len, h.in_lo, h.in_hi, h.out_lo, h.out_hi⟩

theorem rb_next_range (N : Nat) (idx : Int) (h0 : 0 ≤ idx) (hN : idx < (N : Int)) :
    0 ≤ rb_next N idx ∧ rb_next N idx < (N : Int) := by
  rw [rb_next_eq N idx h0 hN]
  split <;> omega

theorem store_length (data : List Int) (idx v : Int) :
    (store data idx v).length = data.length := by
  unfold store
  exact List.length_set _ _ _

theorem rng_step (N : Nat) (a : Action) (s q : rbf) (e : Path)
    (h : Rng N s) (hs : step N a s = some (e, q)) : Rng N q := by
  cases a with
  | producer pid =>
    rcases producer_cs_shape N s q pid e hs with ⟨_, _, hq⟩ | ⟨_, _, _, hq⟩ | ⟨_, _, _, hq⟩
    · rw [hq]; exact h
    · rw [hq]; exact h
    · rw [hq]
      have hr := rb_next_range N s.«in» h.in_lo h.in_hi
      exact ⟨by rw [← h.len]; exact store_length _ _ _, hr.1, hr.2, h.out_lo, h.out_hi⟩
  | consumer cid =>
    rcases consumer_cs_shape N s q cid e hs with ⟨_, _, hq⟩ | ⟨_, _, _, hq⟩ | ⟨_, _, _, hq⟩
    · rw [hq]; exact h
    · rw [hq]; exact h
    · rw [hq]
      have hr := rb_next_range N s.out h.out_lo h.out_hi
      exact ⟨by rw [← h.len]; exact store_length _ _ _, h.in_lo, h.in_hi, hr.1, hr.2⟩
  | monitor =>
    rw [monitor_cs_state N s q e hs]; exact h
  | sighdl signum =>
    have hq : sighdl_cs s signum = q := congrArg Prod.snd (Option.some.inj hs)
    rw [← hq]
    exact ⟨h.len, h.in_lo, h.in_hi, h.out_lo, h.out_hi⟩

theorem rng_exec (N : Nat) (acts : List Action) :
    ∀ (p r : rbf) (tr : List Path), Rng N p → exec N acts p = some (tr, r) → Rng N r := by
  induction acts with
  | nil =>
    intro p r tr hp h
    have hr : p = r := congrArg Prod.snd (Option.some.inj h)
    exact hr ▸ hp
  | cons a rest ih =>
    intro p r tr hp h
    obtain ⟨e, q, es, hst, hex, _⟩ := exec_cons N a rest p r tr h
    exact ih q r es (rng_step N a p q e hp hst) hex

theorem reachable_rng (N : Nat) (hN : 1 ≤ N) (s : rbf) (h : Reachable N s) : Rng N s := by
  obtain ⟨m, k, p0, acts, tr, h0, hex⟩ := h
  exact rng_exec N acts p0 s tr (rng_of_inv N p0 (inv_init N hN m k p0 h0)) hex

/-- With array size and cursors in range, a producer critical section returns. -/
theorem producer_cs_total (N : Nat) (s : rbf) (h : Rng N s) (pid : Int) :
    ∃ e q, producer_cs N s pid = some (e, q) := by
  obtain ⟨v, hv⟩ := load_total s.data s.«in» h.in_lo (by rw [h.len]; exact h.in_hi)
  by_cases hf : producer_full N s.«in» s.out
  · refine ⟨Path.rb_full, s, ?_⟩
    simp only [producer_cs, hf, if_true]
  · by_cases hz : v = 0
    · refine ⟨Path.inc 0,
        { s with data := store s.data s.«in» (0 + 1), «in» := rb_next N s.«in» }, ?_⟩
      simp only [producer_cs, hf, if_false, rb_inc, hv, hz, ne_eq, not_true_eq_false, if_false]
    · refine ⟨Path.inc (-1), s, ?_⟩
      simp only [producer_cs, hf, if_false, rb_inc, hv, hz, ne_eq, not_false_eq_true, if_true]

/-- With array size and cursors in range, a consumer critical section returns. -/
theorem consumer_cs_total (N : Nat) (s : rbf) (h : Rng N s) (cid : Int) :
    ∃ e q, consumer_cs N s cid = some (e, q) := by
  obtain ⟨v, hv⟩ := load_total s.data s.out h.out_lo (by rw [h.len]; exact h.out_hi)
  by_cases hf : s.«in» = s.out
  · refine ⟨Path.rb_empty, s, ?_⟩
    simp only [consumer_cs, hf, if_true]
  · by_cases hz : v = 1
    · refine ⟨Path.dec 0,
        { s with data := store s.data s.out (1 - 1), out := rb_next N s.out }, ?_⟩
      simp only [consumer_cs, hf, if_false, rb_dec, hv, hz, ne_eq, not_true_eq_false, if_false]
    · refine ⟨Path.dec (-1), s, ?_⟩
      simp only [consumer_cs, hf, if_false, rb_dec, hv, hz, ne_eq, not_false_eq_true, if_true]

/-! ## Scenario A at `N = 4` -/

theorem round_exec (c : Nat) (hc : c < 4) :
    step 4 (Action.producer 0) ⟨[0, 0, 0, 0], (c : Int), (c : Int), 0⟩
        = some (Path.inc 0, ⟨[0, 0, 0, 0].set c 1, (((c + 1) % 4 : Nat) : Int), (c : Int), 0⟩)
      ∧ step 4 (Action.consumer 0)
          ⟨[0, 0, 0, 0].set c 1, (((c + 1) % 4 : Nat) : Int), (c : Int), 0⟩
        = some (Path.dec 0,
            ⟨[0, 0, 0, 0], (((c + 1) % 4 : Nat) : Int), (((c + 1) % 4 : Nat) : Int), 0⟩) := by
  interval_cases c <;> decide

theorem rounds_exec (k : Nat) :
    ∀ c : Nat, c < 4 →
      exec 4 (rounds k) ⟨[0, 0, 0, 0], (c : Int), (c : Int), 0⟩
        = some (round_paths k,
            ⟨[0, 0, 0, 0], (((c + k) % 4 : Nat) : Int), (((c + k) % 4 : Nat) : Int), 0⟩) := by
  induction k with
  | zero =>
    intro c hc
    simp only [rounds, round_paths, exec, Nat.add_zero, Nat.mod_eq_of_lt hc]
  | succ k ih =>
    intro c hc
    obtain ⟨h1, h2⟩ := round_exec c hc
    have h3 := ih ((c + 1) % 4) (Nat.mod_lt _ (by decide))
    have h4 : ((c + 1) % 4 + k) % 4 = (c + (k + 1)) % 4 := by omega
    rw [h4] at h3
    simp only [rounds, round_paths, exec, h1, h2, h3]

/-- C11, the claim as stated fails: at `N = 4`, after two produce/consume rounds both
cursors are 2, and the next successful produce and consume steps move them to 3, not 0. -/
theorem scenario_a_after_two_is_three :
    exec 4 (rounds 2) ⟨[0, 0, 0, 0], 0, 0, 0⟩
        = some ([Path.inc 0, Path.dec 0, Path.inc 0, Path.dec 0], ⟨[0, 0, 0, 0], 2, 2, 0⟩)
      ∧ producer_cs 4 ⟨[0, 0, 0, 0], 2, 2, 0⟩ 0 = some (Path.inc 0, ⟨[0, 0, 1, 0], 3, 2, 0⟩)
      ∧ consumer_cs 4 ⟨[0, 0, 1, 0], 3, 2, 0⟩ 0 = some (Path.dec 0, ⟨[0, 0, 0, 0], 3, 3, 0⟩)
      ∧ rb_next 4 2 = 3 ∧ rb_next 4 2 ≠ 0 := by
  decide

/-- C11 as amended: at `N = 4`, from the initial state, `k` rounds of one producer step
and one consumer step all succeed and leave both cursors at `k mod 4`; the successive
cursor values are 0,1,2,3,0,1,2,3,...: the value after 2 is 3 and the value after 3 is 0. -/
theorem scenario_a_cursor_cycle (k : Nat) :
    exec 4 (rounds k) ⟨[0, 0, 0, 0], 0, 0, 0⟩
        = some (round_paths k, ⟨[0, 0, 0, 0], ((k % 4 : Nat) : Int), ((k % 4 : Nat) : Int), 0⟩)
      ∧ rb_init 4 true true = some ⟨[0, 0, 0, 0], 0, 0, 0⟩
      ∧ (exec_states 4 (rounds 5) ⟨[0, 0, 0, 0], 0, 0, 0⟩).map
          (fun qs => qs.map (fun q => (q.«in», q.out)))
        = some [(1, 0), (1, 1), (2, 1), (2, 2), (3, 2), (3, 3), (0, 3), (0, 0), (1, 0), (1, 1)]
      ∧ rb_next 4 0 = 1 ∧ rb_next 4 1 = 2 ∧ rb_next 4 2 = 3 ∧ rb_next 4 3 = 0 := by
  refine ⟨?_, by decide, by decide, by decide, by decide, by decide, by decide⟩
  have h := rounds_exec k 0 (by decide)
  simpa using h

/-- C12 (cursor range): for `N ≥ 1`, in every reachable state the array has `N` slots and
both cursors lie in `[0, N)`; a successful producer step sets `in` to `(in + 1) mod N` and
leaves `out` unchanged, a successful consumer step sets `out` to `(out + 1) mod N` and
leaves `in` unchanged; the accesses `data[in]` and `data[out]` are within bounds, so every
producer and consumer critical section returns. -/
theorem cursor_range (N : Nat) (hN : 1 ≤ N) (s : rbf) (h : Reachable N s) :
    (s.data.length = N ∧ 0 ≤ s.«in» ∧ s.«in» < (N : Int) ∧ 0 ≤ s.out ∧ s.out < (N : Int))
    ∧ (∀ (pid : Int) (q : rbf), producer_cs N s pid = some (Path.inc 0, q) →
        q.«in» = (s.«in» + 1) % (N : Int) ∧ q.out = s.out)
    ∧ (∀ (cid : Int) (q : rbf), consumer_cs N s cid = some (Path.dec 0, q) →
        q.out = (s.out + 1) % (N : Int) ∧ q.«in» = s.«in»)
    ∧ (∃ v, load s.data s.«in» = some v) ∧ (∃ v, load s.data s.out = some v)
    ∧ (∀ pid : Int, ∃ e q, producer_cs N s pid = some (e, q))
    ∧ (∀ cid : Int, ∃ e q, consumer_cs N s cid = some (e, q)) := by
  have hr := reachable_rng N hN s h
  refine ⟨⟨hr.len, hr.in_lo, hr.in_hi, hr.out_lo, hr.out_hi⟩, ?_, ?_,
    load_total s.data s.«in» hr.in_lo (by rw [hr.len]; exact hr.in_hi),
    load_total s.data s.out hr.out_lo (by rw [hr.len]; exact hr.out_hi),
    producer_cs_total N s hr, consumer_cs_total N s hr⟩
  · intro pid q hq
    rcases producer_cs_shape N s q pid _ hq with ⟨_, he, _⟩ | ⟨_, _, he, _⟩ | ⟨_, _, _, hq2⟩
    · exact absurd he (by simp)
    · exact absurd he (by simp)
    · rw [hq2]
      exact ⟨rb_next_emod N s.«in» hr.in_lo, rfl⟩
  · intro cid q hq
    rcases consumer_cs_shape N s q cid _ hq with ⟨_, he, _⟩ | ⟨_, _, he, _⟩ | ⟨_, _, _, hq2⟩
    · exact absurd he (by simp)
    · exact absurd he (by simp)
    · rw [hq2]
      exact ⟨rb_next_emod N s.out hr.out_lo, rfl⟩

/-- Witness of C12 at `N = 4`: the full buffer after three producer steps and one
consumer step followed by a fourth producer step, whose write cursor wrapped to 0. -/
theorem cursor_range_witness :
    (1 ≤ 4 ∧ Reachable 4 ⟨[0, 1, 1, 1], 0, 1, 0⟩) ∧
    (((⟨[0, 1, 1, 1], 0, 1, 0⟩ : rbf).data.length = 4 ∧ (0 : Int) ≤ 0 ∧ (0 : Int) < ((4 : Nat) : Int)
        ∧ (0 : Int) ≤ 1 ∧ (1 : Int) < ((4 : Nat) : Int))
    ∧ (∀ (pid : Int) (q : rbf), producer_cs 4 ⟨[0, 1, 1, 1], 0, 1, 0⟩ pid = some (Path.inc 0, q) →
        q.«in» = (0 + 1) % ((4 : Nat) : Int) ∧ q.out = 1)
    ∧ (∀ (cid : Int) (q : rbf), consumer_cs 4 ⟨[0, 1, 1, 1], 0, 1, 0⟩ cid = some (Path.dec 0, q) →
        q.out = (1 + 1) % ((4 : Nat) : Int) ∧ q.«in» = 0)
    ∧ (∃ v, load [0, 1, 1, 1] 0 = some v) ∧ (∃ v, load [0, 1, 1, 1] 1 = some v)
    ∧ (∀ pid : Int, ∃ e q, producer_cs 4 ⟨[0, 1, 1, 1], 0, 1, 0⟩ pid = some (e, q))
    ∧ (∀ cid : Int, ∃ e q, consumer_cs 4 ⟨[0, 1, 1, 1], 0, 1, 0⟩ cid = some (e, q))) :=
  have hr : Reachable 4 ⟨[0, 1, 1, 1], 0, 1, 0⟩ :=
    ⟨true, true, ⟨[0, 0, 0, 0], 0, 0, 0⟩,
      [Action.producer 0, Action.producer 1, Action.producer 2, Action.consumer 0,
        Action.producer 1],
      [Path.inc 0, Path.inc 0, Path.inc 0, Path.dec 0, Path.inc 0], by decide, by decide⟩
  ⟨⟨by decide, hr⟩, cursor_range 4 (by decide) _ hr⟩

theorem rb_inc_fail (N : Nat) (s q : rbf) (idx pid : Int)
    (h : rb_inc N s idx pid = some (-1, q)) : q = s := by
  unfold rb_inc at h
  cases hv : load s.data idx with
  | none => rw [hv] at h; exact absurd h (by simp)
  | some v =>
    rw [hv] at h
    by_cases hz : v = 0
    · subst hz
      simp only [ne_eq, not_true_eq_false, if_false] at h
      have hc : (0 : Int) = -1 := congrArg Prod.fst (Option.some.inj h)
      exact absurd hc (by decide)
    · simp only [ne_eq, hz, not_false_eq_true, if_true] at h
      exact (congrArg Prod.snd (Option.some.inj h)).symm

theorem rb_dec_fail (N : Nat) (s q : rbf) (idx cid : Int)
    (h : rb_dec N s idx cid = some (-1, q)) : q = s := by
  unfold rb_dec at h
  cases hv : load s.data idx with
  | none => rw [hv] at h; exact absurd h (by simp)
  | some v =>
    rw [hv] at h
    by_cases hz : v = 1
    · subst hz
      simp only [ne_eq, not_true_eq_false, if_false] at h
      have hc : (0 : Int) = -1 := congrArg Prod.fst (Option.some.inj h)
      exact absurd hc (by decide)
    · simp only [ne_eq, hz, not_false_eq_true, if_true] at h
      exact (congrArg Prod.snd (Option.some.inj h)).symm

/-- C13, the claim as stated fails: at `N = 4` with `data[0] = 1` and `in = out = 0` the
full test is false and `rb_inc` returns -1, yet the producer iteration ends Running with the
state unchanged, and so does the next iteration; likewise for the consumer with
`data[0] = 0`, `in = 1`, `out = 0`. -/
theorem violation_does_not_stop_worker :
    ¬ producer_full 4 0 0
      ∧ rb_inc 4 ⟨[1, 0, 0, 0], 0, 0, 0⟩ 0 0 = some (-1, ⟨[1, 0, 0, 0], 0, 0, 0⟩)
      ∧ producer_iter 4 ⟨[1, 0, 0, 0], 0, 0, 0⟩ ⟨[1, 0, 0, 0], 0, 0, 0⟩ 0
          = some (Ctl.running, some (Path.inc (-1)), ⟨[1, 0, 0, 0], 0, 0, 0⟩)
      ∧ producer_iter 4 ⟨[1, 0, 0, 0], 0, 0, 0⟩ ⟨[1, 0, 0, 0], 0, 0, 0⟩ 0
          ≠ some (Ctl.terminated, none, ⟨[1, 0, 0, 0], 0, 0, 0⟩)
      ∧ rb_dec 4 ⟨[0, 0, 0, 0], 1, 0, 0⟩ 0 0 = some (-1, ⟨[0, 0, 0, 0], 1, 0, 0⟩)
      ∧ consumer_iter 4 ⟨[0, 0, 0, 0], 1, 0, 0⟩ ⟨[0, 0, 0, 0], 1, 0, 0⟩ 0
          = some (Ctl.running, some (Path.dec (-1)), ⟨[0, 0, 0, 0], 1, 0, 0⟩) := by
  decide

/-- C13 as amended: whenever the flag read at the top of the iteration is unset, the full
test is false and `rb_inc` fails with -1, the producer iteration leaves the state
unchanged and the producer stays Running, so its next iteration makes the same failing
call again; symmetrically for a consumer iteration in which `rb_dec` fails. -/
theorem violation_is_retried (N : Nat) (seen s : rbf) (pid cid : Int)
    (hflag : seen.terminate = 0) :
    (¬ producer_full N s.«in» s.out → (∃ q, rb_inc N s s.«in» pid = some (-1, q)) →
        producer_iter N seen s pid = some (Ctl.running, some (Path.inc (-1)), s))
    ∧ (s.«in» ≠ s.out → (∃ q, rb_dec N s s.out cid = some (-1, q)) →
        consumer_iter N seen s cid = some (Ctl.running, some (Path.dec (-1)), s)) := by
  constructor
  · intro hf ⟨q, hq⟩
    have hqs := rb_inc_fail N s q s.«in» pid hq
    rw [hqs] at hq
    simp only [producer_iter, hflag, ne_eq, not_true_eq_false, if_false, producer_cs, hf, hq]
  · intro hf ⟨q, hq⟩
    have hqs := rb_dec_fail N s q s.out cid hq
    rw [hqs] at hq
    simp only [consumer_iter, hflag, ne_eq, not_true_eq_false, if_false, consumer_cs, hf, hq]

/-- Witness of amended C13 at `N = 4`. -/
theorem violation_is_retried_witness :
    (⟨[1, 0, 0, 0], 0, 0, 0⟩ : rbf).terminate = 0 ∧
    ((¬ producer_full 4 0 0 → (∃ q, rb_inc 4 ⟨[1, 0, 0, 0], 0, 0, 0⟩ 0 3 = some (-1, q)) →
        producer_iter 4 ⟨[1, 0, 0, 0], 0, 0, 0⟩ ⟨[1, 0, 0, 0], 0, 0, 0⟩ 3
          = some (Ctl.running, some (Path.inc (-1)), ⟨[1, 0, 0, 0], 0, 0, 0⟩))
    ∧ ((0 : Int) ≠ 0 → (∃ q, rb_dec 4 ⟨[1, 0, 0, 0], 0, 0, 0⟩ 0 5 = some (-1, q)) →
        consumer_iter 4 ⟨[1, 0, 0, 0], 0, 0, 0⟩ ⟨[1, 0, 0, 0], 0, 0, 0⟩ 5
          = some (Ctl.running, some (Path.dec (-1)), ⟨[1, 0, 0, 0], 0, 0, 0⟩)))
    ∧ producer_iter 4 ⟨[1, 0, 0, 0], 0, 0, 0⟩ ⟨[1, 0, 0, 0], 0, 0, 0⟩ 3
        = some (Ctl.running, some (Path.inc (-1)), ⟨[1, 0, 0, 0], 0, 0, 0⟩) :=
  ⟨rfl, violation_is_retried 4 ⟨[1, 0, 0, 0], 0, 0, 0⟩ ⟨[1, 0, 0, 0], 0, 0, 0⟩ 3 5 rfl,
    (violation_is_retried 4 ⟨[1, 0, 0, 0], 0, 0, 0⟩ ⟨[1, 0, 0, 0], 0, 0, 0⟩ 3 5 rfl).1
      (by decide) ⟨⟨[1, 0, 0, 0], 0, 0, 0⟩, by decide⟩⟩

/-! ## The text of a dump -/

theorem rb_dump_loop_eq (data : List Int) (n : Nat) :
    ∀ i : Nat, i + n = data.length →
      rb_dump_loop data i n = some (markers_text (data.drop i)) := by
  induction n with
  | zero =>
    intro i hi
    rw [List.drop_of_length_le (by omega)]
    rfl
  | succ n ih =>
    intro i hi
    have hil : i < data.length := by omega
    have hl : load data (i : Int) = some data[i] := by
      rw [load_natCast]; exact List.getElem?_eq_getElem hil
    have hd : data.drop i = data[i] :: data.drop (i + 1) := List.drop_eq_getElem_cons hil
    rw [hd]
    simp only [rb_dump_loop, hl, ih (i + 1) (by omega), markers_text]

theorem markers_of_inv (N : Nat) (s : rbf) (h : Inv N s) :
    ∀ v ∈ s.data, v = 0 ∨ v = 1 := by
  intro v hv
  obtain ⟨i, hi, hiv⟩ := List.getElem_of_mem hv
  have h1 := h.slots i (by rw [← h.len]; exact hi)
  rw [List.getElem?_eq_getElem hi, hiv] at h1
  have h2 := Option.some.inj h1
  rw [h2]
  split
  · exact Or.inr rfl
  · exact Or.inl rfl

/-- C14, the claim as stated fails: for the state with markers 0 1 0 0, `in = 2`,
`out = 1` the text printed has three spaces before `[` and a space after the last marker. -/
theorem rb_dump_text_differs :
    rb_dump 4 ⟨[0, 1, 0, 0], 2, 1, 0⟩ = some "in 2 out 1   [0 1 0 0 ]\n"
      ∧ rb_dump 4 ⟨[0, 1, 0, 0], 2, 1, 0⟩ ≠ some "in 2 out 1 [0 1 0 0]\n" := by
  decide

/-- C14 as amended: for every state with an `N`-slot array the text written by `rb_dump`
is the literal `in `, the write cursor in decimal, ` out `, the read cursor in decimal,
three spaces, `[`, the `N` markers each in decimal and each followed by one space, then
`]` and a newline; in every reachable state (`N ≥ 2`) each marker is 0 or 1. -/
theorem rb_dump_format (N : Nat) (p : rbf) (hlen : p.data.length = N) :
    rb_dump N p
        = some ("in " ++ toString p.«in» ++ " out " ++ toString p.out ++ "   ["
            ++ markers_text p.data ++ "]\n")
      ∧ (2 ≤ N → Reachable N p → ∀ v ∈ p.data, v = 0 ∨ v = 1) := by
  constructor
  · have h := rb_dump_loop_eq p.data N 0 (by omega)
    rw [List.drop_zero] at h
    simp only [rb_dump, h]
  · intro hN hr
    exact markers_of_inv N p (reachable_inv N hN p hr)

/-- Witness of amended C14 at `N = 4`. -/
theorem rb_dump_format_witness :
    (⟨[0, 1, 0, 0], 2, 1, 0⟩ : rbf).data.length = 4 ∧
    (rb_dump 4 ⟨[0, 1, 0, 0], 2, 1, 0⟩
        = some ("in " ++ toString (2 : Int) ++ " out " ++ toString (1 : Int) ++ "   ["
            ++ markers_text [0, 1, 0, 0] ++ "]\n")
      ∧ (2 ≤ 4 → Reachable 4 ⟨[0, 1, 0, 0], 2, 1, 0⟩ → ∀ v ∈ [(0 : Int), 1, 0, 0], v = 0 ∨ v = 1))
    ∧ markers_text [0, 1, 0, 0] = "0 1 0 0 " :=
  ⟨rfl, rb_dump_format 4 ⟨[0, 1, 0, 0], 2, 1, 0⟩ rfl, by decide⟩

/-- C15 (`request_terminate`), evaluated on the code: when `sighdl` runs on the thread
that holds the mutex, for instance on producer 0 interrupted between lines 113 and 122,
`rb_lock` never returns, so the handler yields no state and the flag is not set.  In every
other case the handler returns with the mutex released, `terminate` set to 1 and `data`,
`in` and `out` unchanged, and a second run yields the same state. -/
theorem sighdl_blocks_on_lock_holder :
    rb_lock (some (Thread.producer 0)) (Thread.producer 0) = LockResult.blocked
    ∧ sighdl (some (Thread.producer 0)) (Thread.producer 0) ⟨List.replicate 32 0, 0, 0, 0⟩ 2
        = none
    ∧ (∀ (self : Thread) (p : rbf) (signum : Int), sighdl (some self) self p signum = none)
    ∧ (∀ (holder : Option Thread) (self : Thread) (p : rbf) (signum : Int),
        holder ≠ some self →
          sighdl holder self p signum = some (none, sighdl_cs p signum)
          ∧ (sighdl_cs p signum).terminate = 1
          ∧ (sighdl_cs p signum).data = p.data ∧ (sighdl_cs p signum).«in» = p.«in»
          ∧ (sighdl_cs p signum).out = p.out
          ∧ ∀ (holder2 : Option Thread) (self2 : Thread) (signum2 : Int),
              holder2 ≠ some self2 →
                sighdl holder2 self2 (sighdl_cs p signum) signum2
                  = some (none, sighdl_cs p signum)) := by
  have hret : ∀ (holder : Option Thread) (self : Thread) (p : rbf) (signum : Int),
      holder ≠ some self → sighdl holder self p signum = some (none, sighdl_cs p signum) := by
    intro holder self p signum hne
    cases holder with
    | none => rfl
    | some t =>
      have hts : t ≠ self := fun hc => hne (by rw [hc])
      simp only [sighdl, rb_lock, hts, if_false, rb_unlock]
  refine ⟨by decide, by decide, ?_, ?_⟩
  · intro self p signum
    simp only [sighdl, rb_lock, if_true]
  · intro holder self p signum hne
    refine ⟨hret holder self p signum hne, rfl, rfl, rfl, rfl, ?_⟩
    intro holder2 self2 signum2 hne2
    exact hret holder2 self2 (sighdl_cs p signum) signum2 hne2

/-- C16 (the termination flag is never reset): the flag is 0 in the state built by
`rb_init`; no producer step, consumer step, dump or `sighdl` call changes a set flag to
unset, so once set it is set in every later state; in every reachable state the flag is 0
or 1 and a flag equal to 1 stays 1, so its value changes at most once, from 0 to 1. -/
theorem terminate_never_reset (N : Nat) :
    (∀ (m k : Bool) (p0 : rbf), rb_init N m k = some p0 → p0.terminate = 0)
    ∧ (∀ (a : Action) (s q : rbf) (e : Path), step N a s = some (e, q) →
        s.terminate ≠ 0 → q.terminate ≠ 0)
    ∧ (∀ (acts : List Action) (s r : rbf) (tr : List Path), exec N acts s = some (tr, r) →
        s.terminate ≠ 0 → r.terminate ≠ 0)
    ∧ (∀ s : rbf, Reachable N s →
        (s.terminate = 0 ∨ s.terminate = 1)
        ∧ ∀ (acts : List Action) (r : rbf) (tr : List Path), exec N acts s = some (tr, r) →
            s.terminate = 1 → r.terminate = 1) := by
  refine ⟨?_, ?_, ?_, ?_⟩
  · intro m k p0 h
    rw [rb_init_eq N m k p0 h]
  · intro a s q e h hs
    rcases step_terminate N a s q e h with hq | ⟨_, hq⟩
    · rw [hq]; exact hs
    · rw [hq]; decide
  · intro acts s r tr h
    exact (exec_terminate N acts s r tr h).1
  · intro s hs
    obtain ⟨m, k, p0, acts, tr, h0, hex⟩ := hs
    have hp0 : p0.terminate = 0 := by rw [rb_init_eq N m k p0 h0]
    refine ⟨(exec_terminate N acts p0 s tr hex).2.2 (Or.inl hp0), ?_⟩
    intro acts2 r tr2 h2
    exact (exec_terminate N acts2 s r tr2 h2).2.1

/-- Witness of C16 at `N = 4`: after a producer step and `sighdl` the flag is 1, and it
is still 1 after a further producer step, consumer step, dump and second `sighdl`. -/
theorem terminate_never_reset_witness :
    Reachable 4 ⟨[1, 0, 0, 0], 1, 0, 1⟩
      ∧ exec 4 [Action.producer 1, Action.consumer 0, Action.monitor, Action.sighdl 2]
          ⟨[1, 0, 0, 0], 1, 0, 1⟩
        = some ([Path.inc 0, Path.dec 0, Path.dump "in 2 out 1   [0 1 0 0 ]\n", Path.terminate],
            ⟨[0, 1, 0, 0], 2, 1, 1⟩)
      ∧ (⟨[0, 1, 0, 0], 2, 1, 1⟩ : rbf).terminate = 1 :=
  have hr : Reachable 4 ⟨[1, 0, 0, 0], 1, 0, 1⟩ :=
    ⟨true, true, ⟨[0, 0, 0, 0], 0, 0, 0⟩, [Action.producer 0, Action.sighdl 2],
      [Path.inc 0, Path.terminate], by decide, by decide⟩
  have hx : exec 4 [Action.producer 1, Action.consumer 0, Action.monitor, Action.sighdl 2]
      ⟨[1, 0, 0, 0], 1, 0, 1⟩
      = some ([Path.inc 0, Path.dec 0, Path.dump "in 2 out 1   [0 1 0 0 ]\n", Path.terminate],
          ⟨[0, 1, 0, 0], 2, 1, 1⟩) := by decide
  ⟨hr, hx, ((terminate_never_reset 4).2.2.2 _ hr).2 _ _ _ hx rfl⟩

/-! ## Lock operations and accesses of one iteration -/

theorem lock_ok_accesses (es rest : List Ev)
    (h : ∀ e ∈ es, ∃ l, e = Ev.read l ∨ e = Ev.write l) :
    lock_ok true (es ++ rest) = lock_ok true rest := by
  induction es with
  | nil => rfl
  | cons e es ih =>
    have ih2 := ih (fun x hx => h x (List.mem_cons_of_mem e hx))
    obtain ⟨l, hl | hl⟩ := h e (List.mem_cons_self e es)
    · subst hl
      show (true && lock_ok true (es ++ rest)) = lock_ok true rest
      rw [ih2, Bool.true_and]
    · subst hl
      show (true && lock_ok true (es ++ rest)) = lock_ok true rest
      rw [ih2, Bool.true_and]

theorem count_lock_accesses (es : List Ev)
    (h : ∀ e ∈ es, ∃ l, e = Ev.read l ∨ e = Ev.write l) :
    es.count Ev.lock = 0 := by
  rw [List.count_eq_zero]
  intro hm
  obtain ⟨l, hl | hl⟩ := h Ev.lock hm
  · cases hl
  · cases hl

theorem rb_inc_events_accesses (p : rbf) (idx : Int) :
    ∀ e ∈ rb_inc_events p idx, ∃ l, e = Ev.read l ∨ e = Ev.write l := by
  intro e he
  unfold rb_inc_events at he
  split at he
  · simp only [List.mem_singleton] at he
    exact ⟨_, Or.inl he⟩
  · split at he
    · simp only [List.mem_cons, List.mem_singleton, List.not_mem_nil, or_false] at he
      rcases he with he | he
      · exact ⟨_, Or.inl he⟩
      · exact ⟨_, Or.inl he⟩
    · simp only [List.mem_cons, List.mem_singleton, List.not_mem_nil, or_false] at he
      rcases he with he | he | he | he
      · exact ⟨_, Or.inl he⟩
      · exact ⟨_, Or.inl he⟩
      · exact ⟨_, Or.inr he⟩
      · exact ⟨_, Or.inr he⟩

theorem rb_dec_events_accesses (p : rbf) (idx : Int) :
    ∀ e ∈ rb_dec_events p idx, ∃ l, e = Ev.read l ∨ e = Ev.write l := by
  intro e he
  unfold rb_dec_events at he
  split at he
  · simp only [List.mem_singleton] at he
    exact ⟨_, Or.inl he⟩
  · split at he
    · simp only [List.mem_cons, List.mem_singleton, List.not_mem_nil, or_false] at he
      rcases he with he | he
      · exact ⟨_, Or.inl he⟩
      · exact ⟨_, Or.inl he⟩
    · simp only [List.mem_cons, List.mem_singleton, List.not_mem_nil, or_false] at he
      rcases he with he | he | he | he
      · exact ⟨_, Or.inl he⟩
      · exact ⟨_, Or.inl he⟩
      · exact ⟨_, Or.inr he⟩
      · exact ⟨_, Or.inr he⟩

theorem rb_dump_events_accesses (N : Nat) :
    ∀ e ∈ rb_dump_events N, ∃ l, e = Ev.read l ∨ e = Ev.write l := by
  intro e he
  unfold rb_dump_events at he
  simp only [List.mem_cons, List.mem_map] at he
  rcases he with he | he | ⟨i, _, he⟩
  · exact ⟨_, Or.inl he⟩
  · exact ⟨_, Or.inl he⟩
  · exact ⟨_, Or.inl he.symm⟩

/-- The part of a producer iteration from `rb_lock` to `rb_unlock`. -/
theorem producer_locked_part (N : Nat) (p : rbf) :
    ∃ body : List Ev, (∀ e ∈ body, ∃ l, e = Ev.read l ∨ e = Ev.write l)
      ∧ [Ev.lock, Ev.read Loc.cursor_in, Ev.read Loc.cursor_out]
          ++ (if producer_full N p.«in» p.out then [] else rb_inc_events p p.«in»)
          ++ [Ev.unlock]
        = Ev.lock :: (body ++ [Ev.unlock]) := by
  refine ⟨[Ev.read Loc.cursor_in, Ev.read Loc.cursor_out]
    ++ (if producer_full N p.«in» p.out then [] else rb_inc_events p p.«in»), ?_, by simp⟩
  intro e he
  rw [List.mem_append] at he
  rcases he with he | he
  · simp only [List.mem_cons, List.mem_singleton, List.not_mem_nil, or_false] at he
    rcases he with he | he
    · exact ⟨_, Or.inl he⟩
    · exact ⟨_, Or.inl he⟩
  · split at he
    · cases he
    · exact rb_inc_events_accesses p p.«in» e he

/-- The part of a consumer iteration from `rb_lock` to `rb_unlock`. -/
theorem consumer_locked_part (p : rbf) :
    ∃ body : List Ev, (∀ e ∈ body, ∃ l, e = Ev.read l ∨ e = Ev.write l)
      ∧ [Ev.lock, Ev.read Loc.cursor_in, Ev.read Loc.cursor_out]
          ++ (if p.«in» = p.out then [] else rb_dec_events p p.out)
          ++ [Ev.unlock]
        = Ev.lock :: (body ++ [Ev.unlock]) := by
  refine ⟨[Ev.read Loc.cursor_in, Ev.read Loc.cursor_out]
    ++ (if p.«in» = p.out then [] else rb_dec_events p p.out), ?_, by simp⟩
  intro e he
  rw [List.mem_append] at he
  rcases he with he | he
  · simp only [List.mem_cons, List.mem_singleton, List.not_mem_nil, or_false] at he
    rcases he with he | he
    · exact ⟨_, Or.inl he⟩
    · exact ⟨_, Or.inl he⟩
  · split at he
    · cases he
    · exact rb_dec_events_accesses p p.out e he

theorem locked_part_ok (body : List Ev)
    (h : ∀ e ∈ body, ∃ l, e = Ev.read l ∨ e = Ev.write l) :
    lock_ok false (Ev.lock :: (body ++ [Ev.unlock])) = true
      ∧ (Ev.lock :: (body ++ [Ev.unlock])).count Ev.lock = 1 := by
  constructor
  · simp only [lock_ok]
    rw [lock_ok_accesses body [Ev.unlock] h]
    rfl
  · rw [List.count_cons_self, List.count_append, count_lock_accesses body h]
    rfl

theorem producer_events_tail (N : Nat) (seen p : rbf) :
    ∃ rest, producer_events N seen p = Ev.read Loc.flag :: rest
      ∧ lock_ok false rest = true
      ∧ (seen.terminate ≠ 0 → rest = [])
      ∧ (seen.terminate = 0 → rest.count Ev.lock = 1) := by
  by_cases hflag : seen.terminate = 0
  · obtain ⟨body, hb, heq⟩ := producer_locked_part N p
    refine ⟨Ev.lock :: (body ++ [Ev.unlock]), ?_, (locked_part_ok body hb).1,
      fun hc => absurd hflag hc, fun _ => (locked_part_ok body hb).2⟩
    rw [← heq]
    simp only [producer_events, hflag, ne_eq, not_true_eq_false, if_false]
  · refine ⟨[], ?_, rfl, fun _ => rfl, fun hc => absurd hc hflag⟩
    simp only [producer_events, ne_eq, hflag, not_false_eq_true, if_true]

theorem consumer_events_tail (seen p : rbf) :
    ∃ rest, consumer_events seen p = Ev.read Loc.flag :: rest
      ∧ lock_ok false rest = true
      ∧ (seen.terminate ≠ 0 → rest = [])
      ∧ (seen.terminate = 0 → rest.count Ev.lock = 1) := by
  by_cases hflag : seen.terminate = 0
  · obtain ⟨body, hb, heq⟩ := consumer_locked_part p
    refine ⟨Ev.lock :: (body ++ [Ev.unlock]), ?_, (locked_part_ok body hb).1,
      fun hc => absurd hflag hc, fun _ => (locked_part_ok body hb).2⟩
    rw [← heq]
    simp only [consumer_events, hflag, ne_eq, not_true_eq_false, if_false]
  · refine ⟨[], ?_, rfl, fun _ => rfl, fun hc => absurd hc hflag⟩
    simp only [consumer_events, ne_eq, hflag, not_false_eq_true, if_true]

theorem monitor_events_tail (N : Nat) (seen : rbf) :
    ∃ rest, monitor_events N seen = Ev.read Loc.flag :: rest
      ∧ lock_ok false rest = true
      ∧ (seen.terminate ≠ 0 → rest = [])
      ∧ (seen.terminate = 0 → rest.count Ev.lock = 1) := by
  by_cases hflag : seen.terminate = 0
  · have hb := rb_dump_events_accesses N
    refine ⟨Ev.lock :: (rb_dump_events N ++ [Ev.unlock]), ?_, (locked_part_ok _ hb).1,
      fun hc => absurd hflag hc, fun _ => (locked_part_ok _ hb).2⟩
    simp only [monitor_events, hflag, ne_eq, not_true_eq_false, if_false, List.singleton_append,
      List.cons_append, List.nil_append]
  · refine ⟨[], ?_, rfl, fun _ => rfl, fun hc => absurd hc hflag⟩
    simp only [monitor_events, ne_eq, hflag, not_false_eq_true, if_true]

/-- C17 (a terminated worker does not touch the buffer): for each of `producer`,
`consumer` and `monitor`, when the flag read at the top of an iteration is set the worker
leaves its loop in that iteration, runs no critical section (so calls none of `rb_inc`,
`rb_dec`, `rb_dump`), leaves the buffer unchanged and its only access is the read of the
flag; when the flag read is unset (array size and cursors in range) the worker runs exactly
one critical section, takes the lock exactly once, and stays Running. -/
theorem terminated_worker_no_access (N : Nat) (seen p : rbf) (pid cid : Int) :
    (seen.terminate ≠ 0 →
        producer_iter N seen p pid = some (Ctl.terminated, none, p)
        ∧ consumer_iter N seen p cid = some (Ctl.terminated, none, p)
        ∧ monitor_iter N seen p = some (Ctl.terminated, none, p)
        ∧ producer_events N seen p = [Ev.read Loc.flag]
        ∧ consumer_events seen p = [Ev.read Loc.flag]
        ∧ monitor_events N seen = [Ev.read Loc.flag])
    ∧ (seen.terminate = 0 → Rng N p →
        (∃ e q, producer_cs N p pid = some (e, q)
            ∧ producer_iter N seen p pid = some (Ctl.running, some e, q))
        ∧ (∃ e q, consumer_cs N p cid = some (e, q)
            ∧ consumer_iter N seen p cid = some (Ctl.running, some e, q))
        ∧ (∃ text, monitor_cs N p = some (Path.dump text, p)
            ∧ monitor_iter N seen p = some (Ctl.running, some (Path.dump text), p))
        ∧ (producer_events N seen p).count Ev.lock = 1
        ∧ (consumer_events seen p).count Ev.lock = 1
        ∧ (monitor_events N seen).count Ev.lock = 1) := by
  constructor
  · intro hflag
    refine ⟨?_, ?_, ?_, ?_, ?_, ?_⟩
    · simp only [producer_iter, ne_eq, hflag, not_false_eq_true, if_true]
    · simp only [consumer_iter, ne_eq, hflag, not_false_eq_true, if_true]
    · simp only [monitor_iter, ne_eq, hflag, not_false_eq_true, if_true]
    · simp only [producer_events, ne_eq, hflag, not_false_eq_true, if_true]
    · simp only [consumer_events, ne_eq, hflag, not_false_eq_true, if_true]
    · simp only [monitor_events, ne_eq, hflag, not_false_eq_true, if_true]
  · intro hflag hr
    refine ⟨?_, ?_, ?_, ?_, ?_, ?_⟩
    · obtain ⟨e, q, hq⟩ := producer_cs_total N p hr pid
      exact ⟨e, q, hq, by simp only [producer_iter, hflag, ne_eq, not_true_eq_false, if_false, hq]⟩
    · obtain ⟨e, q, hq⟩ := consumer_cs_total N p hr cid
      exact ⟨e, q, hq, by simp only [consumer_iter, hflag, ne_eq, not_true_eq_false, if_false, hq]⟩
    · obtain ⟨text, hq⟩ := monitor_cs_total N p hr.len
      exact ⟨text, hq, by simp only [monitor_iter, hflag, ne_eq, not_true_eq_false, if_false, hq]⟩
    · obtain ⟨rest, h1, _, _, h4⟩ := producer_events_tail N seen p
      rw [h1, List.count_cons_of_ne (by simp)]
      exact h4 hflag
    · obtain ⟨rest, h1, _, _, h4⟩ := consumer_events_tail seen p
      rw [h1, List.count_cons_of_ne (by simp)]
      exact h4 hflag
    · obtain ⟨rest, h1, _, _, h4⟩ := monitor_events_tail N seen
      rw [h1, List.count_cons_of_ne (by simp)]
      exact h4 hflag

/-- Witness of C17 at `N = 4`: with the flag set the three workers stop; with the flag
unset, on the buffer holding one item, each runs one critical section. -/
theorem terminated_worker_no_access_witness :
    ((⟨[1, 0, 0, 0], 1, 0, 1⟩ : rbf).terminate ≠ 0 ∧
      producer_iter 4 ⟨[1, 0, 0, 0], 1, 0, 1⟩ ⟨[1, 0, 0, 0], 1, 0, 1⟩ 0
        = some (Ctl.terminated, none, ⟨[1, 0, 0, 0], 1, 0, 1⟩)
      ∧ consumer_iter 4 ⟨[1, 0, 0, 0], 1, 0, 1⟩ ⟨[1, 0, 0, 0], 1, 0, 1⟩ 0
        = some (Ctl.terminated, none, ⟨[1, 0, 0, 0], 1, 0, 1⟩)
      ∧ monitor_iter 4 ⟨[1, 0, 0, 0], 1, 0, 1⟩ ⟨[1, 0, 0, 0], 1, 0, 1⟩
        = some (Ctl.terminated, none, ⟨[1, 0, 0, 0], 1, 0, 1⟩)
      ∧ producer_events 4 ⟨[1, 0, 0, 0], 1, 0, 1⟩ ⟨[1, 0, 0, 0], 1, 0, 1⟩ = [Ev.read Loc.flag]
      ∧ consumer_events ⟨[1, 0, 0, 0], 1, 0, 1⟩ ⟨[1, 0, 0, 0], 1, 0, 1⟩ = [Ev.read Loc.flag]
      ∧ monitor_events 4 ⟨[1, 0, 0, 0], 1, 0, 1⟩ = [Ev.read Loc.flag])
    ∧ ((⟨[1, 0, 0, 0], 1, 0, 0⟩ : rbf).terminate = 0 ∧ Rng 4 ⟨[1, 0, 0, 0], 1, 0, 0⟩
      ∧ producer_iter 4 ⟨[1, 0, 0, 0], 1, 0, 0⟩ ⟨[1, 0, 0, 0], 1, 0, 0⟩ 0
        = some (Ctl.running, some (Path.inc 0), ⟨[1, 1, 0, 0], 2, 0, 0⟩)
      ∧ (producer_events 4 ⟨[1, 0, 0, 0], 1, 0, 0⟩ ⟨[1, 0, 0, 0], 1, 0, 0⟩).count Ev.lock = 1) :=
  have hr : Rng 4 ⟨[1, 0, 0, 0], 1, 0, 0⟩ := ⟨rfl, by decide, by decide, by decide, by decide⟩
  have hw := terminated_worker_no_access 4 ⟨[1, 0, 0, 0], 1, 0, 0⟩ ⟨[1, 0, 0, 0], 1, 0, 0⟩ 0 0
  ⟨⟨by decide,
      (terminated_worker_no_access 4 ⟨[1, 0, 0, 0], 1, 0, 1⟩ ⟨[1, 0, 0, 0], 1, 0, 1⟩ 0 0).1
        (by decide)⟩,
    rfl, hr, by decide, (hw.2 rfl hr).2.2.2.1⟩

/-- C18, the claim as stated fails: the first access of a producer, consumer or monitor
iteration is the read of the termination flag on line 111, 136 or 158, made before
`rb_lock`; the iteration as a whole does not keep the lock discipline. -/
theorem flag_read_without_lock :
    producer_events 4 ⟨[0, 0, 0, 0], 0, 0, 0⟩ ⟨[0, 0, 0, 0], 0, 0, 0⟩
        = [Ev.read Loc.flag, Ev.lock, Ev.read Loc.cursor_in, Ev.read Loc.cursor_out,
            Ev.read (Loc.data 0), Ev.read (Loc.data 0), Ev.write (Loc.data 0),
            Ev.write Loc.cursor_in, Ev.unlock]
      ∧ lock_ok false (producer_events 4 ⟨[0, 0, 0, 0], 0, 0, 0⟩ ⟨[0, 0, 0, 0], 0, 0, 0⟩) = false
      ∧ lock_ok false (consumer_events ⟨[0, 0, 0, 0], 0, 0, 0⟩ ⟨[0, 0, 0, 0], 0, 0, 0⟩) = false
      ∧ lock_ok false (monitor_events 4 ⟨[0, 0, 0, 0], 0, 0, 0⟩) = false := by
  decide

/-- C18 as amended: in every iteration of producer, consumer and monitor the first access
is the read of the termination flag, made without the lock; every later access of the
iteration (cursors and markers) happens between `rb_lock` and `rb_unlock`; the write of
the flag by `sighdl` happens between `rb_lock` and `rb_unlock`. -/
theorem lock_discipline (N : Nat) (seen p : rbf) :
    (∃ rest, producer_events N seen p = Ev.read Loc.flag :: rest ∧ lock_ok false rest = true)
    ∧ (∃ rest, consumer_events seen p = Ev.read Loc.flag :: rest ∧ lock_ok false rest = true)
    ∧ (∃ rest, monitor_events N seen = Ev.read Loc.flag :: rest ∧ lock_ok false rest = true)
    ∧ lock_ok false sighdl_events = true
    ∧ lock_ok false (producer_events N seen p) = false
    ∧ lock_ok false (consumer_events seen p) = false
    ∧ lock_ok false (monitor_events N seen) = false := by
  obtain ⟨r1, h1, k1, _⟩ := producer_events_tail N seen p
  obtain ⟨r2, h2, k2, _⟩ := consumer_events_tail seen p
  obtain ⟨r3, h3, k3, _⟩ := monitor_events_tail N seen
  refine ⟨⟨r1, h1, k1⟩, ⟨r2, h2, k2⟩, ⟨r3, h3, k3⟩, rfl, ?_, ?_, ?_⟩
  · rw [h1]; rfl
  · rw [h2]; rfl
  · rw [h3]; rfl

theorem rb_next_ne (N : Nat) (hN : 2 ≤ N) (idx : Int) (h0 : 0 ≤ idx) (hlt : idx < (N : Int)) :
    rb_next N idx ≠ idx := by
  rw [rb_next_eq N idx h0 hlt]
  split <;> omega

/-- C19 (full and empty are exclusive): the producer's full test and the consumer's empty
test `in == out` are never both true; hence for `N ≥ 2`, in every reachable state a
producer step or a consumer step succeeds and changes the state.  For `N = 1` the full
test is never true on cursors in range, and the second producer step from the initial
state takes the error branch of `rb_inc`. -/
theorem full_empty_exclusive (N : Nat) (hN : 2 ≤ N) :
    (∀ i o : Int, ¬ (producer_full N i o ∧ i = o))
    ∧ (∀ s : rbf, Reachable N s → ∀ pid cid : Int,
        (∃ q, producer_cs N s pid = some (Path.inc 0, q) ∧ q ≠ s)
          ∨ (∃ q, consumer_cs N s cid = some (Path.dec 0, q) ∧ q ≠ s))
    ∧ (∀ i o : Int, 0 ≤ i → i < 1 → 0 ≤ o → o < 1 → ¬ producer_full 1 i o)
    ∧ (rb_init 1 true true = some ⟨[0], 0, 0, 0⟩
        ∧ exec 1 [Action.producer 0, Action.producer 0] ⟨[0], 0, 0, 0⟩
          = some ([Path.inc 0, Path.inc (-1)], ⟨[1], 0, 0, 0⟩)) := by
  refine ⟨?_, ?_, ?_, by decide, by decide⟩
  · intro i o ⟨hf, hio⟩
    unfold producer_full at hf
    omega
  · intro s hs pid cid
    have hinv := reachable_inv N hN s hs
    rcases producer_cs_cases N hN s hinv pid with ⟨hf, _⟩ | ⟨_, h1, _⟩
    · have hne : s.«in» ≠ s.out := by
        unfold producer_full at hf
        omega
      rcases consumer_cs_cases N s hinv cid with ⟨he, _⟩ | ⟨_, h2, _⟩
      · exact absurd he hne
      · refine Or.inr ⟨_, h2, ?_⟩
        intro hc
        have ho : rb_next N s.out = s.out := congrArg rbf.out hc
        exact rb_next_ne N hN s.out hinv.out_lo hinv.out_hi ho
    · refine Or.inl ⟨_, h1, ?_⟩
      intro hc
      have hi : rb_next N s.«in» = s.«in» := congrArg rbf.«in» hc
      exact rb_next_ne N hN s.«in» hinv.in_lo hinv.in_hi hi
  · intro i o _ _ _ _ hf
    unfold producer_full at hf
    omega

/-- Witness of C19 at `N = 4`. -/
theorem full_empty_exclusive_witness :
    2 ≤ 4 ∧
    ((∀ i o : Int, ¬ (producer_full 4 i o ∧ i = o))
    ∧ (∀ s : rbf, Reachable 4 s → ∀ pid cid : Int,
        (∃ q, producer_cs 4 s pid = some (Path.inc 0, q) ∧ q ≠ s)
          ∨ (∃ q, consumer_cs 4 s cid = some (Path.dec 0, q) ∧ q ≠ s))
    ∧ (∀ i o : Int, 0 ≤ i → i < 1 → 0 ≤ o → o < 1 → ¬ producer_full 1 i o)
    ∧ (rb_init 1 true true = some ⟨[0], 0, 0, 0⟩
        ∧ exec 1 [Action.producer 0, Action.producer 0] ⟨[0], 0, 0, 0⟩
          = some ([Path.inc 0, Path.inc (-1)], ⟨[1], 0, 0, 0⟩))) :=
  ⟨by decide, full_empty_exclusive 4 (by decide)⟩

theorem rb_inc_ignores_cursor (N : Nat) (p : rbf) (idx pid x : Int) :
    (rb_inc N { p with «in» := x } idx pid).map Prod.fst = (rb_inc N p idx pid).map Prod.fst
      ∧ ∀ q, rb_inc N p idx pid = some (0, q) → q.«in» = rb_next N idx := by
  constructor
  · unfold rb_inc
    cases load p.data idx with
    | none => rfl
    | some v =>
      by_cases hz : v = 0
      · simp only [hz, ne_eq, not_true_eq_false, if_false, Option.map_some']
      · simp only [hz, ne_eq, not_false_eq_true, if_true, Option.map_some']
  · intro q hq
    unfold rb_inc at hq
    cases hv : load p.data idx with
    | none => rw [hv] at hq; exact absurd hq (by simp)
    | some v =>
      rw [hv] at hq
      by_cases hz : v = 0
      · simp only [hz, ne_eq, not_true_eq_false, if_false] at hq
        have hq2 : _ = q := congrArg Prod.snd (Option.some.inj hq)
        rw [← hq2]
      · simp only [hz, ne_eq, not_false_eq_true, if_true] at hq
        have hc : (-1 : Int) = 0 := congrArg Prod.fst (Option.some.inj hq)
        exact absurd hc (by decide)

theorem rb_dec_ignores_cursor (N : Nat) (p : rbf) (idx cid x : Int) :
    (rb_dec N { p with out := x } idx cid).map Prod.fst = (rb_dec N p idx cid).map Prod.fst
      ∧ ∀ q, rb_dec N p idx cid = some (0, q) → q.out = rb_next N idx := by
  constructor
  · unfold rb_dec
    cases load p.data idx with
    | none => rfl
    | some v =>
      by_cases hz : v = 1
      · simp only [hz, ne_eq, not_true_eq_false, if_false, Option.map_some']
      · simp only [hz, ne_eq, not_false_eq_true, if_true, Option.map_some']
  · intro q hq
    unfold rb_dec at hq
    cases hv : load p.data idx with
    | none => rw [hv] at hq; exact absurd hq (by simp)
    | some v =>
      rw [hv] at hq
      by_cases hz : v = 1
      · simp only [hz, ne_eq, not_true_eq_false, if_false] at hq
        have hq2 : _ = q := congrArg Prod.snd (Option.some.inj hq)
        rw [← hq2]
      · simp only [hz, ne_eq, not_false_eq_true, if_true] at hq
        have hc : (-1 : Int) = 0 := congrArg Prod.fst (Option.some.inj hq)
        exact absurd hc (by decide)

theorem producer_cs_calls_at_in (N : Nat) (s q : rbf) (pid ret : Int)
    (h : producer_cs N s pid = some (Path.inc ret, q)) :
    rb_inc N s s.«in» pid = some (ret, q) := by
  unfold producer_cs at h
  simp only at h
  split at h
  · exact absurd (congrArg Prod.fst (Option.some.inj h)) (by simp)
  · cases hr : rb_inc N s s.«in» pid with
    | none => rw [hr] at h; exact absurd h (by simp)
    | some rq =>
      obtain ⟨r, q2⟩ := rq
      rw [hr] at h
      have h2 := Option.some.inj h
      have hq : q2 = q := congrArg Prod.snd h2
      have hp : Path.inc r = Path.inc ret := congrArg Prod.fst h2
      rw [hq, Path.inc.inj hp]

theorem consumer_cs_calls_at_out (N : Nat) (s q : rbf) (cid ret : Int)
    (h : consumer_cs N s cid = some (Path.dec ret, q)) :
    rb_dec N s s.out cid = some (ret, q) := by
  unfold consumer_cs at h
  simp only at h
  split at h
  · exact absurd (congrArg Prod.fst (Option.some.inj h)) (by simp)
  · cases hr : rb_dec N s s.out cid with
    | none => rw [hr] at h; exact absurd h (by simp)
    | some rq =>
      obtain ⟨r, q2⟩ := rq
      rw [hr] at h
      have h2 := Option.some.inj h
      have hq : q2 = q := congrArg Prod.snd h2
      have hp : Path.dec r = Path.dec ret := congrArg Prod.fst h2
      rw [hq, Path.dec.inj hp]

/-- C20 (`rb_inc` and `rb_dec` trust the caller's index): the value they return does not
depend on the stored cursor and on success the new cursor is `rb_next(idx)`; at `N = 4`,
in the initial state (which satisfies the slot-occupancy property) the call
`rb_inc(p, 3, pid)` with `3 != in` and `data[3]` Empty returns 0 and yields a state that
violates the property, slot 3 being Occupied outside the empty range `[out, in)`; the
producer always passes `idx = in` and the consumer always passes `idx = out`. -/
theorem rb_inc_trusts_index :
    (SlotInv 4 ⟨[0, 0, 0, 0], 0, 0, 0⟩ ∧ (3 : Int) ≠ (⟨[0, 0, 0, 0], 0, 0, 0⟩ : rbf).«in»
      ∧ load [0, 0, 0, 0] 3 = some 0
      ∧ rb_inc 4 ⟨[0, 0, 0, 0], 0, 0, 0⟩ 3 0 = some (0, ⟨[0, 0, 0, 1], 0, 0, 0⟩)
      ∧ ¬ SlotInv 4 ⟨[0, 0, 0, 1], 0, 0, 0⟩
      ∧ load [0, 0, 0, 1] 3 = some 1
      ∧ ¬ (((3 : Int) - 0) % ((4 : Nat) : Int) < ((0 : Int) - 0) % ((4 : Nat) : Int)))
    ∧ (SlotInv 4 ⟨[1, 1, 1, 0], 3, 0, 0⟩ ∧ (1 : Int) ≠ (⟨[1, 1, 1, 0], 3, 0, 0⟩ : rbf).out
      ∧ rb_dec 4 ⟨[1, 1, 1, 0], 3, 0, 0⟩ 1 0 = some (0, ⟨[1, 0, 1, 0], 3, 2, 0⟩)
      ∧ ¬ SlotInv 4 ⟨[1, 0, 1, 0], 3, 2, 0⟩)
    ∧ (∀ (N : Nat) (p : rbf) (idx pid x : Int),
        (rb_inc N { p with «in» := x } idx pid).map Prod.fst = (rb_inc N p idx pid).map Prod.fst
        ∧ ∀ q, rb_inc N p idx pid = some (0, q) → q.«in» = rb_next N idx)
    ∧ (∀ (N : Nat) (p : rbf) (idx cid x : Int),
        (rb_dec N { p with out := x } idx cid).map Prod.fst = (rb_dec N p idx cid).map Prod.fst
        ∧ ∀ q, rb_dec N p idx cid = some (0, q) → q.out = rb_next N idx)
    ∧ (∀ (N : Nat) (s q : rbf) (pid ret : Int),
        producer_cs N s pid = some (Path.inc ret, q) → rb_inc N s s.«in» pid = some (ret, q))
    ∧ (∀ (N : Nat) (s q : rbf) (cid ret : Int),
        consumer_cs N s cid = some (Path.dec ret, q) → rb_dec N s s.out cid = some (ret, q)) := by
  refine ⟨⟨?_, by decide, by decide, by decide, ?_, by decide, by decide⟩,
    ⟨?_, by decide, by decide, ?_⟩,
    rb_inc_ignores_cursor, rb_dec_ignores_cursor, producer_cs_calls_at_in,
    consumer_cs_calls_at_out⟩
  · unfold SlotInv; decide
  · unfold SlotInv; decide
  · unfold SlotInv; decide
  · unfold SlotInv; decide

end ProducerConsumer
